import Mathlib

/-!
Verification development for `orion.core.io.experiment_branch_builder`.

The Python module is shallowly embedded here:
* dimension names and command-line tokens are `List Char` (`Str`);
* a `Space` is the ordered list of its dimension descriptors (the Python
  object is a dict keyed by `dim.name`, so name lookup is membership by the
  `name` field and `values()` is the list itself);
* `Conflict` objects are mutable records with Python object identity, so the
  builder state keeps them in a list and the operation log stores *indices*
  into that list (Python `==` on these objects is identity, hence index
  equality);
* methods that can raise (`list.index` → `ValueError`) return `Option` or
  `Except`, with `Except.error` carrying the state at the moment the
  exception escapes (Python mutations performed before the raise survive).
-/

namespace OrionBranch

abbrev Str := List Char

/-- `strPfx p s` is Python `s.startswith(p)`. -/
def strPfx : Str → Str → Bool
  | [], _ => true
  | _ :: _, [] => false
  | a :: as, b :: bs => a == b && strPfx as bs

/-- `containsSub pat s` is Python `pat in s` (substring containment). -/
def containsSub (pat : Str) : Str → Bool
  | [] => pat.isEmpty
  | c :: rest => strPfx pat (c :: rest) || containsSub pat rest

/-- Python `s.replace('~+', '~')`: left-to-right, non-overlapping. -/
def replaceTP : Str → Str
  | [] => []
  | '~' :: '+' :: rest => '~' :: replaceTP rest
  | c :: rest => c :: replaceTP rest

/-- Python `s.split(' ')` (single-space separator, empty pieces kept). -/
def splitSp : Str → List Str
  | [] => [[]]
  | c :: rest =>
    if c = ' ' then [] :: splitSp rest
    else
      match splitSp rest with
      | [] => [[c]]
      | t :: ts => (c :: t) :: ts

/-- Index of the first element satisfying `p` (Python `list.index` shape). -/
def findIdxW {α : Type} (p : α → Bool) : List α → Option Nat
  | [] => none
  | a :: rest => if p a then some 0 else (findIdxW p rest).map (· + 1)

/-- Conflict statuses: `'new'`, `'changed'`, `'missing'` in the source. -/
inductive CStatus
  | new
  | changed
  | missing
deriving DecidableEq

/-- Dimension descriptor: a name (with the leading `'/'` the space builder
puts on it) and an otherwise uninterpreted prior, compared structurally. -/
structure Dim where
  name : Str
  prior : Nat
deriving DecidableEq

/-- A space is its ordered list of dimension values; the Python dict is keyed
by `dim.name`, so key membership is `hasName`. -/
abbrev Space := List Dim

def hasName (sp : Space) (n : Str) : Bool :=
  sp.any (fun d => d.name == n)

/-- `Conflict.__init__`: status, dimension, `is_solved = False`. -/
structure Conflict where
  status : CStatus
  dim : Dim
  is_solved : Bool
deriving DecidableEq

/-- The loop body of `_find_conflicts` over the conflicting (child) space:
if the name exists in the parent space but the value does not, the dimension
has changed; if the name does not exist, it is new. -/
def childConf (parent : Space) (d : Dim) : Option Conflict :=
  if hasName parent d.name then
    if d ∈ parent then none
    else some { status := CStatus.changed, dim := d, is_solved := false }
  else some { status := CStatus.new, dim := d, is_solved := false }

/-- The loop body of `_find_conflicts` over the parent (experiment) space:
a dimension whose name is not in the conflicting space is missing. -/
def parentConf (child : Space) (d : Dim) : Option Conflict :=
  if hasName child d.name then none
  else some { status := CStatus.missing, dim := d, is_solved := false }

/-- `_find_conflicts`: one pass over the child (conflicting) space, then one
over the parent (experiment) space. -/
def find_conflicts (parent child : Space) : List Conflict :=
  child.filterMap (childConf parent) ++ parent.filterMap (parentConf child)

/-- Builder state: the conflict list plus the operation log
(`self.operations`), which holds indices into `conflicts` because the Python
lists hold the conflict objects themselves (identity semantics).  The dict is
modelled as one (possibly empty) list per key; an absent key and an empty
list are indistinguishable to every reader of `self.operations`. -/
structure BState where
  conflicts : List Conflict
  addOps : List Nat
  removeOps : List Nat
  renameOps : List (Nat × Nat)
deriving DecidableEq

/-- Set `is_solved` of the conflict at index `i` (in-place mutation of the
shared object). -/
def setSolved : List Conflict → Nat → Bool → List Conflict
  | [], _, _ => []
  | c :: cs, 0, b => { c with is_solved := b } :: cs
  | c :: cs, i + 1, b => c :: setSolved cs i b

/-- `self.special_keywords`: `'~new'`, `'~changed'`, `'~missing'`. -/
def special_kw (t : Str) : Option CStatus :=
  if t = ['~', 'n', 'e', 'w'] then some CStatus.new
  else if t = ['~', 'c', 'h', 'a', 'n', 'g', 'e', 'd'] then some CStatus.changed
  else if t = ['~', 'm', 'i', 's', 's', 'i', 'n', 'g'] then some CStatus.missing
  else none

/-- `_extend_special_keywords`: names (sans leading `'/'`) of every conflict
whose status is the keyword's own status — the allowed-status set is ignored
by the source here. -/
def keyword_names (st : BState) (s : CStatus) : List Str :=
  (st.conflicts.filter (fun c => c.status = s)).map (fun c => c.dim.name.tail)

/-- `_extend_wildcard`: names of conflicts whose (prefixed) name starts with
`'/' + arg.split('*')[0]` and whose status is in the allowed set. -/
def wildcard_names (st : BState) (tok : Str) (statuses : List CStatus) : List Str :=
  (st.conflicts.filter (fun c =>
    strPfx ('/' :: tok.takeWhile (fun ch => ch ≠ '*')) c.dim.name
      && decide (c.status ∈ statuses))).map (fun c => c.dim.name.tail)

/-- The token loop of `_get_names`: a keyword or wildcard token extends the
accumulated list, a literal token replaces it. -/
def get_names_go (st : BState) (statuses : List CStatus) :
    List Str → List Str → List Str
  | [], names => names
  | tok :: rest, names =>
    match special_kw tok with
    | some s => get_names_go st statuses rest (names ++ keyword_names st s)
    | none =>
      if tok.contains '*' then
        get_names_go st statuses rest (names ++ wildcard_names st tok statuses)
      else
        get_names_go st statuses rest [tok]

/-- `_get_names`. -/
def get_names (st : BState) (raw : Str) (statuses : List CStatus) : List Str :=
  get_names_go st statuses (splitSp raw) []

/-- `_assert_has_status`: filter conflicts by status, then `.index` of the
prefixed name; the first conflict (in list order) with an allowed status and
the name.  `none` models the `ValueError` escaping `.index`. -/
def assert_has_status (st : BState) (name : Str) (statuses : List CStatus) :
    Option Nat :=
  findIdxW (fun c => decide (c.status ∈ statuses) && c.dim.name == '/' :: name)
    st.conflicts

/-- `_mark_as` (and `_mark_as_solved` with `b = true`). -/
def mark_as (st : BState) (name : Str) (statuses : List CStatus) (b : Bool) :
    Option (Nat × BState) :=
  match assert_has_status st name statuses with
  | none => none
  | some i => some (i, { st with conflicts := setSolved st.conflicts i b })

/-- `_put_operation` for the single-conflict lists (`add`, `remove`). -/
def put_single (l : List Nat) (i : Nat) : List Nat :=
  if i ∈ l then l else l ++ [i]

/-- `_put_operation` for the `rename` list of pairs. -/
def put_pair (l : List (Nat × Nat)) (p : Nat × Nat) : List (Nat × Nat) :=
  if p ∈ l then l else l ++ [p]

inductive OpKind
  | add
  | remove
deriving DecidableEq

def put_basic (st : BState) (k : OpKind) (i : Nat) : BState :=
  match k with
  | OpKind.add => { st with addOps := put_single st.addOps i }
  | OpKind.remove => { st with removeOps := put_single st.removeOps i }

/-- The loop of `_do_basic` over the already-expanded name list.  A failing
`_mark_as_solved` raises out of the loop: names processed earlier keep their
mutations (`Except.error` carries that state). -/
def do_basic_go (st : BState) (names : List Str) (statuses : List CStatus)
    (k : OpKind) : Except BState BState :=
  match names with
  | [] => Except.ok st
  | n :: rest =>
    match mark_as st n statuses true with
    | none => Except.error st
    | some (i, st1) => do_basic_go (put_basic st1 k i) rest statuses k

/-- `_do_basic`: `_get_names` is evaluated once, on the entry state. -/
def do_basic (st : BState) (raw : Str) (statuses : List CStatus) (k : OpKind) :
    Except BState BState :=
  do_basic_go st (get_names st raw statuses) statuses k

/-- `add_dimension`. -/
def add_dimension (st : BState) (raw : Str) : Except BState BState :=
  do_basic st raw [CStatus.new, CStatus.changed] OpKind.add

/-- `remove_dimension`. -/
def remove_dimension (st : BState) (raw : Str) : Except BState BState :=
  do_basic st raw [CStatus.missing] OpKind.remove

/-- The `'rename'` branch of `_remove_from_operations`: Python iterates the
pair list by an internal cursor while `list.remove` shifts it, so the element
following a removed pair is skipped.  `fuel` is the initial list length,
which bounds the number of cursor steps.  Returns the surviving list and the
conflict indices whose `is_solved` was set to `False`. -/
def rename_loop (fuel : Nat) (ops : List (Nat × Nat)) (i k : Nat) :
    List (Nat × Nat) × List Nat :=
  match fuel with
  | 0 => (ops, [])
  | fuel' + 1 =>
    if h : k < ops.length then
      let v := ops.get ⟨k, h⟩
      if v.1 = i ∨ v.2 = i then
        let r := rename_loop fuel' (ops.erase v) i (k + 1)
        (r.1, v.1 :: v.2 :: r.2)
      else rename_loop fuel' ops i (k + 1)
    else (ops, [])

/-- `_remove_from_operations`.  The Python `for operation in self.operations`
visits the present keys in insertion order; the three branches touch disjoint
lists and only ever assign `is_solved := false`, so the final state does not
depend on that order and the model applies the branches in a fixed order
(`rename`, `add`, `remove`), with an absent key behaving as the empty list. -/
def remove_from_operations (st : BState) (i : Nat) : BState :=
  let r := rename_loop st.renameOps.length st.renameOps i 0
  let conflicts1 := r.2.foldl (fun l j => setSolved l j false) st.conflicts
  let st1 : BState :=
    if i ∈ st.addOps then
      { conflicts := setSolved conflicts1 i false,
        addOps := st.addOps.erase i, removeOps := st.removeOps, renameOps := r.1 }
    else
      { conflicts := conflicts1,
        addOps := st.addOps, removeOps := st.removeOps, renameOps := r.1 }
  if i ∈ st1.removeOps then
    { st1 with conflicts := setSolved st1.conflicts i false,
               removeOps := st1.removeOps.erase i }
  else st1

def allStatuses : List CStatus := [CStatus.missing, CStatus.new, CStatus.changed]

/-- The loop of `reset_dimension`.  The source passes the *raw* argument
string `arg` to `_mark_as`, not the expanded `_name` — this is kept
faithfully. -/
def reset_go (st : BState) (arg : Str) : List Str → Except BState BState
  | [] => Except.ok st
  | _ :: rest =>
    match mark_as st arg allStatuses false with
    | none => Except.error st
    | some (i, st1) => reset_go (remove_from_operations st1 i) arg rest

/-- `reset_dimension`. -/
def reset_dimension (st : BState) (arg : Str) : Except BState BState :=
  reset_go st arg (get_names st arg allStatuses)

/-- `rename_dimension`: both lookups happen before any mutation, so a failing
lookup (Python `ValueError`) leaves the state unchanged and `Option`
suffices. -/
def rename_dimension (st : BState) (oldN newN : Str) : Option BState :=
  match assert_has_status st oldN [CStatus.missing] with
  | none => none
  | some i =>
    match assert_has_status st newN [CStatus.new] with
    | none => none
    | some j =>
      some { st with
              conflicts := setSolved (setSolved st.conflicts i true) j true,
              renameOps := put_pair st.renameOps (i, j) }

def kwPlus : Str := ['~', '+']

def kwMinus : Str := ['~', '-']

def kwArrow : Str := ['~', '>']

/-- `self.commandline_keywords`: per marker, the queue of the argument
strings in which it was recognized (replayed later against the resolver). -/
structure CmdQueues where
  addq : List Str
  remq : List Str
  renq : List Str
deriving DecidableEq

def pushQueue (q : CmdQueues) (kw arg : Str) : CmdQueues :=
  if kw = kwPlus then { q with addq := q.addq ++ [arg] }
  else if kw = kwMinus then { q with remq := q.remq ++ [arg] }
  else { q with renq := q.renq ++ [arg] }

/-- One keyword check of the inner loop of `_interpret_commandline`:
`if keyword in arg`, queue the arg, `args.index(arg)` (which can raise
`ValueError`), then rewrite in place for `'~+'` or record the index for
deferred deletion for `'~-'` / `'~>'`. -/
def procKeyword (kw arg : Str) (args : List Str) (td : List Nat)
    (q : CmdQueues) : Except Unit (List Str × List Nat × CmdQueues) :=
  if containsSub kw arg then
    let q1 := pushQueue q kw arg
    match findIdxW (fun a => a == arg) args with
    | none => Except.error ()
    | some idx =>
      if kw = kwPlus then Except.ok (args.set idx (replaceTP arg), td, q1)
      else Except.ok (args, td ++ [idx], q1)
  else Except.ok (args, td, q)

/-- The scan loop of `_interpret_commandline` (`for arg in args`) by cursor
position over the current list.  The scan only rewrites elements in place
(`args[index] = ...`), never changes the length, so `fuel = args.length` at
the top call makes fuel exhaustion coincide with the cursor reaching the
end. -/
def interp_scan (fuel : Nat) (args : List Str) (pos : Nat) (td : List Nat)
    (q : CmdQueues) : Except Unit (List Str × List Nat × CmdQueues) :=
  match fuel with
  | 0 => Except.ok (args, td, q)
  | fuel' + 1 =>
    if h : pos < args.length then
      let arg := args.get ⟨pos, h⟩
      match procKeyword kwPlus arg args td q with
      | Except.error e => Except.error e
      | Except.ok (a1, t1, q1) =>
        match procKeyword kwMinus arg a1 t1 q1 with
        | Except.error e => Except.error e
        | Except.ok (a2, t2, q2) =>
          match procKeyword kwArrow arg a2 t2 q2 with
          | Except.error e => Except.error e
          | Except.ok (a3, t3, q3) => interp_scan fuel' a3 (pos + 1) t3 q3
    else Except.ok (args, td, q)

def insertDesc (n : Nat) : List Nat → List Nat
  | [] => [n]
  | m :: ms => if m ≤ n then n :: m :: ms else m :: insertDesc n ms

/-- Python `sorted(to_delete, reverse=True)`. -/
def sortDesc (l : List Nat) : List Nat := l.foldr insertDesc []

/-- `for i in sorted(to_delete, reverse=True): del args[i]`; `del` on an
out-of-range index raises `IndexError`. -/
def delIdx : List Str → List Nat → Except Unit (List Str)
  | args, [] => Except.ok args
  | args, i :: rest =>
    if i < args.length then delIdx (args.eraseIdx i) rest
    else Except.error ()

/-- `_interpret_commandline` on `conflicting_config['metadata']['user_args']`:
returns the corrected argument list (which feeds space construction) and the
directive queues. -/
def interpret_commandline (args : List Str) :
    Except Unit (List Str × CmdQueues) :=
  match interp_scan args.length args 0 [] ⟨[], [], []⟩ with
  | Except.error e => Except.error e
  | Except.ok (a, td, q) =>
    match delIdx a (sortDesc td) with
    | Except.error e => Except.error e
    | Except.ok a2 => Except.ok (a2, q)

/-- `get_dimension_conflict`: `.index` of the prefixed name over the whole
conflict list. -/
def get_dimension_conflict (st : BState) (name : Str) : Option Nat :=
  findIdxW (fun c => c.dim.name == '/' :: name) st.conflicts

/-- Adapter construction is stubbed in the source (`_add_adaptor`,
`_rename_adaptor`, `_remove_adaptor` all fall through and return `None`). -/
abbrev Adaptor := Unit

def add_adaptor (_ : BState) (_ : Nat) : Option Adaptor := none

def rename_adaptor (_ : BState) (_ : Nat × Nat) : Option Adaptor := none

def remove_adaptor (_ : BState) (_ : Nat) : Option Adaptor := none

/-- The local `adaptors` list built inside `create_adaptors`: one entry per
payload of the operation log (the key iteration order of the Python dict only
permutes the kinds; the claims below use the entry count, which is
order-independent, so the model fixes the order add, rename, remove). -/
def create_adaptors_list (st : BState) : List (Option Adaptor) :=
  st.addOps.map (add_adaptor st)
    ++ st.renameOps.map (rename_adaptor st)
    ++ st.removeOps.map (remove_adaptor st)

/-- `create_adaptors` builds the local list and then falls off the end with
no `return` statement, so the Python call evaluates to `None`. -/
def create_adaptors (st : BState) : Option (List (Option Adaptor)) :=
  let _ := create_adaptors_list st
  none

/-! ## Helper lemmas -/

/-- The immutable part of a conflict: everything but `is_solved`. -/
def csig (c : Conflict) : Dim × CStatus := (c.dim, c.status)

/-- The immutable signature of a builder state's conflict set. -/
def sig (st : BState) : List (Dim × CStatus) := st.conflicts.map csig

theorem setSolved_csig :
    ∀ (l : List Conflict) (i : Nat) (b : Bool),
      (setSolved l i b).map csig = l.map csig
  | [], _, _ => rfl
  | _ :: _, 0, _ => rfl
  | c :: cs, i + 1, b => by
      simp only [setSolved, List.map_cons, setSolved_csig cs i b]

theorem setSolved_idem :
    ∀ (l : List Conflict) (i : Nat) (b : Bool),
      setSolved (setSolved l i b) i b = setSolved l i b
  | [], _, _ => rfl
  | _ :: _, 0, _ => rfl
  | c :: cs, i + 1, b => by
      simp only [setSolved, setSolved_idem cs i b]

theorem findIdxW_map_congr {α β : Type} (f : α → β) (q : β → Bool) :
    ∀ {l1 l2 : List α}, l1.map f = l2.map f →
      findIdxW (fun a => q (f a)) l1 = findIdxW (fun a => q (f a)) l2
  | [], [], _ => rfl
  | [], _ :: _, h => by simp at h
  | _ :: _, [], h => by simp at h
  | a :: l1, b :: l2, h => by
      simp only [List.map_cons, List.cons.injEq] at h
      simp only [findIdxW, h.1, findIdxW_map_congr f q h.2]

theorem assert_has_status_congr {st1 st2 : BState} (h : sig st1 = sig st2)
    (n : Str) (statuses : List CStatus) :
    assert_has_status st1 n statuses = assert_has_status st2 n statuses :=
  findIdxW_map_congr csig
    (fun p => decide (p.2 ∈ statuses) && p.1.name == '/' :: n) h

theorem mark_as_some {st : BState} {n : Str} {statuses : List CStatus}
    {b : Bool} {i : Nat} {st1 : BState}
    (h : mark_as st n statuses b = some (i, st1)) :
    assert_has_status st n statuses = some i ∧
      st1 = { st with conflicts := setSolved st.conflicts i b } := by
  unfold mark_as at h
  cases heq : assert_has_status st n statuses with
  | none => rw [heq] at h; exact absurd h (by simp)
  | some j =>
      rw [heq] at h
      simp only [Option.some.injEq, Prod.mk.injEq] at h
      obtain ⟨h1, h2⟩ := h
      subst h1
      exact ⟨rfl, h2.symm⟩

theorem mark_as_sig {st : BState} {n : Str} {statuses : List CStatus}
    {b : Bool} {i : Nat} {st1 : BState}
    (h : mark_as st n statuses b = some (i, st1)) : sig st1 = sig st := by
  rw [(mark_as_some h).2]
  exact setSolved_csig st.conflicts i b

theorem put_basic_conflicts (st : BState) (k : OpKind) (i : Nat) :
    (put_basic st k i).conflicts = st.conflicts := by
  cases k <;> rfl

/-- The state carried by an `Except` outcome (both constructors). -/
def exSt : Except BState BState → BState
  | Except.ok s => s
  | Except.error s => s

theorem do_basic_go_sig :
    ∀ (names : List Str) (st : BState) (statuses : List CStatus) (k : OpKind),
      sig (exSt (do_basic_go st names statuses k)) = sig st
  | [], _, _, _ => rfl
  | n :: rest, st, statuses, k => by
      unfold do_basic_go
      cases hm : mark_as st n statuses true with
      | none => rfl
      | some p =>
          obtain ⟨i, st1⟩ := p
          have h1 : sig st1 = sig st := mark_as_sig hm
          have h2 : sig (put_basic st1 k i) = sig st1 := by
            unfold sig; rw [put_basic_conflicts]
          rw [do_basic_go_sig rest (put_basic st1 k i) statuses k, h2, h1]

theorem splitSp_single : ∀ {x : Str}, (∀ c ∈ x, c ≠ ' ') → splitSp x = [x]
  | [], _ => rfl
  | c :: rest, h => by
      have hc : c ≠ ' ' := h c (by simp)
      have hr : splitSp rest = [rest] :=
        splitSp_single (fun d hd => h d (by simp [hd]))
      simp only [splitSp, if_neg hc, hr]

/-- A plain single name: not a status keyword, no wildcard, no whitespace. -/
def literalTok (x : Str) : Prop :=
  special_kw x = none ∧ '*' ∉ x ∧ ∀ c ∈ x, c ≠ ' '

instance (x : Str) : Decidable (literalTok x) := by
  unfold literalTok; infer_instance

theorem get_names_literal (st : BState) (statuses : List CStatus) {x : Str}
    (h : literalTok x) : get_names st x statuses = [x] := by
  unfold get_names
  rw [splitSp_single h.2.2]
  simp only [get_names_go, h.1]
  rw [if_neg (by simp [h.2.1])]

/-! ## C5 -/

/-- C5: for a literal name `x` that resolves to a `new` or `changed`
conflict not yet in the `add` operation list, `add_dimension x` succeeds and
records exactly one `add` entry for that conflict, and calling
`add_dimension x` a second time is a no-op (the state, including the `add`
list, is unchanged), so two calls yield exactly one entry. -/
theorem claim_C5_add_dimension_idempotent (st : BState) (x : Str) (i : Nat)
    (hlit : literalTok x)
    (hfind : assert_has_status st x [CStatus.new, CStatus.changed] = some i)
    (hfresh : i ∉ st.addOps) :
    ∃ st1, add_dimension st x = Except.ok st1 ∧
      st1.addOps.count i = 1 ∧
      add_dimension st1 x = Except.ok st1 := by
  have hnames := get_names_literal st [CStatus.new, CStatus.changed] hlit
  set stA : BState := { st with conflicts := setSolved st.conflicts i true }
    with hstA
  have hmark : mark_as st x [CStatus.new, CStatus.changed] true
      = some (i, stA) := by
    unfold mark_as
    rw [hfind]
  set st1 : BState := { stA with addOps := put_single st.addOps i } with hst1
  have hcall1 : add_dimension st x = Except.ok st1 := by
    unfold add_dimension do_basic
    rw [hnames]
    simp only [do_basic_go, hmark]
    rfl
  have haddops : st1.addOps = st.addOps ++ [i] := by
    show put_single st.addOps i = _
    unfold put_single
    rw [if_neg hfresh]
  have hcount : st1.addOps.count i = 1 := by
    rw [haddops, List.count_append, List.count_eq_zero.mpr hfresh]
    simp
  have hsig : sig st1 = sig st := by
    show (setSolved st.conflicts i true).map csig = st.conflicts.map csig
    exact setSolved_csig _ _ _
  have hfind1 : assert_has_status st1 x [CStatus.new, CStatus.changed]
      = some i := by
    rw [assert_has_status_congr hsig, hfind]
  have hconfl : setSolved st1.conflicts i true = st1.conflicts :=
    setSolved_idem st.conflicts i true
  have hmark1 : mark_as st1 x [CStatus.new, CStatus.changed] true
      = some (i, st1) := by
    unfold mark_as
    rw [hfind1]
    show some (i, { st1 with conflicts := setSolved st1.conflicts i true })
      = some (i, st1)
    rw [hconfl]
  have hmem : i ∈ st1.addOps := by
    rw [haddops]
    exact List.mem_append_right _ (by simp)
  have hcall2 : add_dimension st1 x = Except.ok st1 := by
    unfold add_dimension do_basic
    rw [get_names_literal st1 [CStatus.new, CStatus.changed] hlit]
    simp only [do_basic_go, hmark1]
    show Except.ok (put_basic st1 OpKind.add i) = Except.ok st1
    unfold put_basic put_single
    rw [if_pos hmem]
  exact ⟨st1, hcall1, hcount, hcall2⟩

def cexC5 : BState :=
  { conflicts := [{ status := CStatus.new,
                    dim := { name := ['/', 'x'], prior := 0 },
                    is_solved := false }],
    addOps := [], removeOps := [], renameOps := [] }

/-- Witness for C5: a concrete state with the single `new` conflict `/x`. -/
theorem claim_C5_add_dimension_idempotent_witness :
    ∃ st1, add_dimension cexC5 ['x'] = Except.ok st1 ∧
      st1.addOps.count 0 = 1 ∧
      add_dimension st1 ['x'] = Except.ok st1 :=
  claim_C5_add_dimension_idempotent cexC5 ['x'] 0 (by decide) (by decide)
    (by decide)

/-! ## C3 -/

theorem do_basic_go_error :
    ∀ (names : List Str) (st : BState) (statuses : List CStatus) (k : OpKind)
      (st' : BState), do_basic_go st names statuses k = Except.error st' →
      ∃ pre n post, names = pre ++ n :: post ∧
        do_basic_go st pre statuses k = Except.ok st' ∧
        mark_as st' n statuses true = none ∧
        (pre = [] → st' = st)
  | [], st, statuses, k, st', h => by
      exact absurd h (by simp [do_basic_go])
  | n :: rest, st, statuses, k, st', h => by
      rw [show do_basic_go st (n :: rest) statuses k
            = (match mark_as st n statuses true with
               | none => Except.error st
               | some (i, st1) => do_basic_go (put_basic st1 k i) rest statuses k)
          from rfl] at h
      cases hm : mark_as st n statuses true with
      | none =>
          rw [hm] at h
          simp only [Except.error.injEq] at h
          subst h
          exact ⟨[], n, rest, rfl, rfl, hm, fun _ => rfl⟩
      | some p =>
          obtain ⟨i, st1⟩ := p
          rw [hm] at h
          obtain ⟨pre', n', post', hsplit, hok, hfail, -⟩ :=
            do_basic_go_error rest (put_basic st1 k i) statuses k st' h
          refine ⟨n :: pre', n', post', by rw [hsplit]; rfl, ?_, hfail,
            fun hc => absurd hc (by simp)⟩
          rw [show do_basic_go st (n :: pre') statuses k
                = (match mark_as st n statuses true with
                   | none => Except.error st
                   | some (i, st1) =>
                      do_basic_go (put_basic st1 k i) pre' statuses k)
              from rfl, hm]
          exact hok

def cexC3 : BState :=
  { conflicts := [{ status := CStatus.new,
                    dim := { name := ['/', 'd', 'b', '.', 'h', 'o', 's', 't'],
                             prior := 0 },
                    is_solved := false },
                  { status := CStatus.missing,
                    dim := { name := ['/', 'c', 'a', 'c', 'h', 'e', '.', 't',
                                      't', 'l'],
                             prior := 1 },
                    is_solved := false }],
    addOps := [], removeOps := [], renameOps := [] }

def cexC3failed : BState :=
  { conflicts := [{ status := CStatus.new,
                    dim := { name := ['/', 'd', 'b', '.', 'h', 'o', 's', 't'],
                             prior := 0 },
                    is_solved := true },
                  { status := CStatus.missing,
                    dim := { name := ['/', 'c', 'a', 'c', 'h', 'e', '.', 't',
                                      't', 'l'],
                             prior := 1 },
                    is_solved := false }],
    addOps := [0], removeOps := [], renameOps := [] }

/-- C3 counterexample: on the state with conflicts `new:/db.host` and
`missing:/cache.ttl`, the call `add_dimension "db.* ~missing"` expands to
`[db.host, cache.ttl]`, marks `db.host` solved and records it in the `add`
list, then raises on `cache.ttl` — the escaping exception leaves the state
changed, so the call is not strongly exception safe. -/
theorem claim_C3_counterexample :
    add_dimension cexC3
        ['d', 'b', '.', '*', ' ', '~', 'm', 'i', 's', 's', 'i', 'n', 'g']
      = Except.error cexC3failed ∧
    cexC3failed ≠ cexC3 ∧
    cexC3failed.addOps = [0] ∧
    cexC3failed.conflicts.map Conflict.is_solved = [true, false] := by
  refine ⟨rfl, by decide, by decide, by decide⟩

/-- C3 amended: a failing `add_dimension` provides only basic exception
safety — the error state is exactly the state reached by successfully
processing a prefix of the expanded names, with the failure occurring on the
next name; the whole state is unchanged only when the failure hits the very
first expanded name. -/
theorem claim_C3_amended (st st' : BState) (raw : Str)
    (h : add_dimension st raw = Except.error st') :
    ∃ pre n post,
      get_names st raw [CStatus.new, CStatus.changed] = pre ++ n :: post ∧
      do_basic_go st pre [CStatus.new, CStatus.changed] OpKind.add
        = Except.ok st' ∧
      mark_as st' n [CStatus.new, CStatus.changed] true = none ∧
      (pre = [] → st' = st) :=
  do_basic_go_error _ st _ OpKind.add st' h

/-- Witness for the amended C3 at the concrete failing call. -/
theorem claim_C3_amended_witness :
    ∃ pre n post,
      get_names cexC3
          ['d', 'b', '.', '*', ' ', '~', 'm', 'i', 's', 's', 'i', 'n', 'g']
          [CStatus.new, CStatus.changed] = pre ++ n :: post ∧
      do_basic_go cexC3 pre [CStatus.new, CStatus.changed] OpKind.add
        = Except.ok cexC3failed ∧
      mark_as cexC3failed n [CStatus.new, CStatus.changed] true = none ∧
      (pre = [] → cexC3failed = cexC3) :=
  claim_C3_amended cexC3 cexC3failed
    ['d', 'b', '.', '*', ' ', '~', 'm', 'i', 's', 's', 'i', 'n', 'g'] rfl

/-! ## C4 -/

def cexC4 : BState :=
  { conflicts := [{ status := CStatus.new,
                    dim := { name := ['/', 'd', 'b', '.', 'h', 'o', 's', 't'],
                             prior := 0 },
                    is_solved := false }],
    addOps := [], removeOps := [], renameOps := [] }

def cexC4solved : BState :=
  { conflicts := [{ status := CStatus.new,
                    dim := { name := ['/', 'd', 'b', '.', 'h', 'o', 's', 't'],
                             prior := 0 },
                    is_solved := true }],
    addOps := [0], removeOps := [], renameOps := [] }

/-- C4, evaluated at the failing input: after `add_dimension "db.host"`, the
call `reset_dimension "~new"` expands (over the union of the three statuses)
to the name `db.host`, but the loop body passes the raw argument `"~new"` —
not the expanded name — to `_mark_as`, whose lookup of `/~new` raises
`ValueError`; nothing is unsolved and the `add` entry stays, contradicting
the per-resolved-name reset the claim (and the spec) describes. -/
theorem claim_C4_reset_uses_raw_argument :
    add_dimension cexC4 ['d', 'b', '.', 'h', 'o', 's', 't']
      = Except.ok cexC4solved ∧
    get_names cexC4solved ['~', 'n', 'e', 'w'] allStatuses
      = [['d', 'b', '.', 'h', 'o', 's', 't']] ∧
    reset_dimension cexC4solved ['~', 'n', 'e', 'w']
      = Except.error cexC4solved ∧
    cexC4solved.conflicts.map Conflict.is_solved = [true] ∧
    cexC4solved.addOps = [0] :=
  ⟨rfl, by decide, rfl, by decide, by decide⟩

/-! ## C6 -/

/-- C6 counterexample: with conflicts `new:/db.host` and `missing:/cache.ttl`,
the keyword token `~missing` inside an `add_dimension` expansion (allowed
statuses `new`/`changed`) still contributes `cache.ttl`, whose only conflict
has status `missing` — the keyword branch ignores the allowed-status set. -/
theorem claim_C6_counterexample :
    get_names cexC3 ['~', 'm', 'i', 's', 's', 'i', 'n', 'g']
        [CStatus.new, CStatus.changed]
      = [['c', 'a', 'c', 'h', 'e', '.', 't', 't', 'l']] ∧
    cexC3.conflicts.map (fun c => (c.dim.name, c.status))
      = [(['/', 'd', 'b', '.', 'h', 'o', 's', 't'], CStatus.new),
         (['/', 'c', 'a', 'c', 'h', 'e', '.', 't', 't', 'l'],
           CStatus.missing)] := by
  exact ⟨by decide, by decide⟩

def cexC6 : BState :=
  { conflicts := [{ status := CStatus.new,
                    dim := { name := ['/', 'd', 'b', '.', 'h', 'o', 's', 't'],
                             prior := 0 },
                    is_solved := false },
                  { status := CStatus.new,
                    dim := { name := ['/', 'd', 'b', '.', 'p', 'o', 'r', 't'],
                             prior := 1 },
                    is_solved := false },
                  { status := CStatus.missing,
                    dim := { name := ['/', 'c', 'a', 'c', 'h', 'e', '.', 't',
                                      't', 'l'],
                             prior := 2 },
                    is_solved := false }],
    addOps := [], removeOps := [], renameOps := [] }

def cexC6res : BState :=
  { conflicts := [{ status := CStatus.new,
                    dim := { name := ['/', 'd', 'b', '.', 'h', 'o', 's', 't'],
                             prior := 0 },
                    is_solved := true },
                  { status := CStatus.new,
                    dim := { name := ['/', 'd', 'b', '.', 'p', 'o', 'r', 't'],
                             prior := 1 },
                    is_solved := true },
                  { status := CStatus.missing,
                    dim := { name := ['/', 'c', 'a', 'c', 'h', 'e', '.', 't',
                                      't', 'l'],
                             prior := 2 },
                    is_solved := false }],
    addOps := [0, 1], removeOps := [], renameOps := [] }

/-- C6 amended: wildcard expansion is restricted to the allowed status set —
in the spec's scenario `add_dimension "db.*"` solves `db.host` and `db.port`
and leaves `missing:/cache.ttl` untouched, and in general every name a
wildcard token contributes comes from a conflict whose status is in the
allowed set and whose prefixed name starts with the literal before `*` — but
a status-keyword token expands to every conflict name of the keyword's own
status, regardless of the allowed set. -/
theorem claim_C6_amended :
    (add_dimension cexC6 ['d', 'b', '.', '*'] = Except.ok cexC6res) ∧
    (∀ (st : BState) (tok : Str) (statuses : List CStatus),
      ∀ n ∈ wildcard_names st tok statuses,
        ∃ c ∈ st.conflicts, c.status ∈ statuses ∧ n = c.dim.name.tail ∧
          strPfx ('/' :: tok.takeWhile (fun ch => ch ≠ '*')) c.dim.name
            = true) ∧
    (∀ (st : BState) (tok : Str) (s : CStatus) (statuses : List CStatus),
      special_kw tok = some s →
        get_names st tok statuses = keyword_names st s) := by
  refine ⟨rfl, ?_, ?_⟩
  · intro st tok statuses n hn
    unfold wildcard_names at hn
    obtain ⟨c, hc, hcn⟩ := List.mem_map.mp hn
    have hc' := List.mem_filter.mp hc
    have hb := hc'.2
    rw [Bool.and_eq_true] at hb
    exact ⟨c, hc'.1, of_decide_eq_true hb.2, hcn.symm, hb.1⟩
  · intro st tok s statuses hkw
    unfold special_kw at hkw
    split_ifs at hkw with h1 h2 h3
    · cases hkw
      subst h1
      show get_names_go st statuses (splitSp _) [] = _
      simp [splitSp, get_names_go, special_kw]
    · cases hkw
      subst h2
      show get_names_go st statuses (splitSp _) [] = _
      simp [splitSp, get_names_go, special_kw]
    · cases hkw
      subst h3
      show get_names_go st statuses (splitSp _) [] = _
      simp [splitSp, get_names_go, special_kw]

/-- Witness for the amended C6: the keyword conjunct applied to the concrete
`~missing` token under `add_dimension`'s allowed set. -/
theorem claim_C6_amended_witness :
    get_names cexC3 ['~', 'm', 'i', 's', 's', 'i', 'n', 'g']
        [CStatus.new, CStatus.changed]
      = keyword_names cexC3 CStatus.missing :=
  claim_C6_amended.2.2 cexC3 ['~', 'm', 'i', 's', 's', 'i', 'n', 'g']
    CStatus.missing [CStatus.new, CStatus.changed] (by decide)

/-! ## C7 -/

def cexC7 : BState :=
  { conflicts := [{ status := CStatus.new,
                    dim := { name := ['/', 'a'], prior := 0 },
                    is_solved := false },
                  { status := CStatus.new,
                    dim := { name := ['/', 'b', '1'], prior := 1 },
                    is_solved := false }],
    addOps := [], removeOps := [], renameOps := [] }

/-- C7 counterexample: with conflicts `new:/a` and `new:/b1`, the two-token
string `"a b*"` expands to `[a, b1]` — the literal first token survives
because the wildcard token *extends* the accumulated list — while the last
token alone expands to `[b1]`; the whole string's expansion is not the last
token's. -/
theorem claim_C7_counterexample :
    get_names cexC7 ['a', ' ', 'b', '*'] [CStatus.new, CStatus.changed]
      = [['a'], ['b', '1']] ∧
    get_names cexC7 ['b', '*'] [CStatus.new, CStatus.changed]
      = [['b', '1']] ∧
    get_names cexC7 ['a', ' ', 'b', '*'] [CStatus.new, CStatus.changed]
      ≠ get_names cexC7 ['b', '*'] [CStatus.new, CStatus.changed] := by
  exact ⟨by decide, by decide, by decide⟩

theorem get_names_go_last_literal (st : BState) (statuses : List CStatus)
    {t : Str} (hlit : literalTok t) :
    ∀ (toks : List Str) (acc : List Str),
      get_names_go st statuses (toks ++ [t]) acc = [t]
  | [], acc => by
      show get_names_go st statuses [t] acc = [t]
      simp only [get_names_go, hlit.1]
      rw [if_neg (by simp [hlit.2.1])]
  | tok :: rest, acc => by
      show get_names_go st statuses (tok :: (rest ++ [t])) acc = [t]
      simp only [get_names_go]
      cases special_kw tok with
      | some s => exact get_names_go_last_literal st statuses hlit rest _
      | none =>
          by_cases hstar : tok.contains '*' = true
          · rw [if_pos hstar]
            exact get_names_go_last_literal st statuses hlit rest _
          · rw [if_neg hstar]
            exact get_names_go_last_literal st statuses hlit rest _

/-- C7 amended: a literal token *replaces* the accumulated expansion while
keyword and wildcard tokens *extend* it, so the whole string's expansion
equals the last token's own expansion exactly when the last token is a plain
literal (in particular for all-literal multi-token input); for a keyword or
wildcard last token the earlier tokens' contributions survive. -/
theorem claim_C7_amended (st : BState) (statuses : List CStatus) (raw : Str)
    (toks : List Str) (t : Str)
    (hsplit : splitSp raw = toks ++ [t]) (hlit : literalTok t) :
    get_names st raw statuses = [t] ∧ get_names st t statuses = [t] := by
  constructor
  · unfold get_names
    rw [hsplit]
    exact get_names_go_last_literal st statuses hlit toks []
  · exact get_names_literal st statuses hlit

/-- Witness for the amended C7 on the two-literal-token string `"x y"`. -/
theorem claim_C7_amended_witness :
    get_names cexC7 ['x', ' ', 'y'] [CStatus.new] = [['y']] ∧
    get_names cexC7 ['y'] [CStatus.new] = [['y']] :=
  claim_C7_amended cexC7 [CStatus.new] ['x', ' ', 'y'] [['x']] ['y']
    (by decide) (by decide)

/-! ## C1 -/

/-- Number of conflicts in `L` carrying dimension name `n` and status `s`. -/
def cntNS (L : List Conflict) (n : Str) (s : CStatus) : Nat :=
  (L.filter (fun c => decide (c.dim.name = n ∧ c.status = s))).length

theorem childConf_dim {parent : Space} {d : Dim} {c : Conflict}
    (h : childConf parent d = some c) : c.dim = d := by
  unfold childConf at h
  split_ifs at h <;> simp only [Option.some.injEq] at h <;> rw [← h]

theorem parentConf_dim {child : Space} {d : Dim} {c : Conflict}
    (h : parentConf child d = some c) : c.dim = d := by
  unfold parentConf at h
  split_ifs at h
  simp only [Option.some.injEq] at h
  rw [← h]

theorem hasName_iff {sp : Space} {n : Str} :
    hasName sp n = true ↔ ∃ d ∈ sp, d.name = n := by
  unfold hasName
  simp [List.any_eq_true]

theorem cntNS_append (L1 L2 : List Conflict) (n : Str) (s : CStatus) :
    cntNS (L1 ++ L2) n s = cntNS L1 n s + cntNS L2 n s := by
  unfold cntNS
  rw [List.filter_append, List.length_append]

theorem cntNS_filterMap_zero (g : Dim → Option Conflict)
    (hg : ∀ d c, g d = some c → c.dim = d) :
    ∀ (l : List Dim) {n : Str}, (∀ d ∈ l, d.name = n → g d = none) →
      ∀ s, cntNS (l.filterMap g) n s = 0
  | [], _, _, _ => rfl
  | d0 :: rest, n, h, s => by
      have hrest := cntNS_filterMap_zero g hg rest
        (fun d hd hdn => h d (List.mem_cons_of_mem d0 hd) hdn) s
      cases hgd : g d0 with
      | none =>
          rw [List.filterMap_cons]
          simp only [hgd]
          exact hrest
      | some c =>
          rw [List.filterMap_cons]
          simp only [hgd]
          have hdim : c.dim = d0 := hg d0 c hgd
          have hne : c.dim.name ≠ n := by
            rw [hdim]
            intro hdn
            exact absurd hgd (by rw [h d0 (List.mem_cons_self d0 rest) hdn]; simp)
          unfold cntNS
          rw [List.filter_cons_of_neg (by simp [hne])]
          exact hrest

theorem cntNS_filterMap_found (g : Dim → Option Conflict)
    (hg : ∀ d c, g d = some c → c.dim = d) :
    ∀ (l : List Dim) {d : Dim} {n : Str},
      (l.map Dim.name).Nodup → d ∈ l → d.name = n →
      ∀ s, cntNS (l.filterMap g) n s
        = (match g d with
           | none => 0
           | some c => if c.status = s then 1 else 0)
  | [], _, _, _, hmem, _, _ => absurd hmem (List.not_mem_nil _)
  | d0 :: rest, d, n, hnd, hmem, hname, s => by
      have hnd' := hnd
      rw [List.map_cons, List.nodup_cons] at hnd'
      rcases List.mem_cons.mp hmem with heq | hmemr
      · subst heq
        have hzero : cntNS (rest.filterMap g) n s = 0 := by
          refine cntNS_filterMap_zero g hg rest (fun dr hdr hdrn => ?_) s
          exfalso
          apply hnd'.1
          rw [hname, ← hdrn]
          exact List.mem_map_of_mem Dim.name hdr
        cases hgd : g d with
        | none =>
            rw [List.filterMap_cons]
            simp only [hgd]
            exact hzero
        | some c =>
            rw [List.filterMap_cons]
            simp only [hgd]
            have hdim : c.dim = d := hg d c hgd
            unfold cntNS
            unfold cntNS at hzero
            by_cases hs : c.status = s
            · rw [List.filter_cons_of_pos (by simp [hdim, hname, hs]),
                List.length_cons, if_pos hs, hzero]
            · rw [List.filter_cons_of_neg (by simp [hdim, hname, hs]),
                if_neg hs]
              exact hzero
      · have hd0n : d0.name ≠ n := by
          intro h0
          exact hnd'.1 (h0 ▸ hname ▸ List.mem_map_of_mem Dim.name hmemr)
        have hrest := cntNS_filterMap_found g hg rest hnd'.2 hmemr hname s
        cases hgd : g d0 with
        | none =>
            rw [List.filterMap_cons]
            simp only [hgd]
            exact hrest
        | some c =>
            rw [List.filterMap_cons]
            simp only [hgd]
            have hdim : c.dim = d0 := hg d0 c hgd
            unfold cntNS
            rw [List.filter_cons_of_neg (by simp [hdim, hd0n])]
            exact hrest

theorem childConf_new {parent : Space} {d : Dim}
    (h : hasName parent d.name = false) :
    childConf parent d
      = some { status := CStatus.new, dim := d, is_solved := false } := by
  unfold childConf
  rw [h]
  simp

theorem childConf_none {parent : Space} {d : Dim} (h1 : d ∈ parent) :
    childConf parent d = none := by
  unfold childConf
  rw [if_pos (hasName_iff.mpr ⟨d, h1, rfl⟩), if_pos h1]

theorem childConf_changed {parent : Space} {d : Dim}
    (h1 : hasName parent d.name = true) (h2 : d ∉ parent) :
    childConf parent d
      = some { status := CStatus.changed, dim := d, is_solved := false } := by
  unfold childConf
  rw [if_pos h1, if_neg h2]

theorem parentConf_none {child : Space} {d : Dim}
    (h : hasName child d.name = true) : parentConf child d = none := by
  unfold parentConf
  rw [if_pos h]

theorem parentConf_missing {child : Space} {d : Dim}
    (h : hasName child d.name = false) :
    parentConf child d
      = some { status := CStatus.missing, dim := d, is_solved := false } := by
  unfold parentConf
  rw [h]
  simp

theorem name_unique {l : List Dim} (h : (l.map Dim.name).Nodup) {d1 d2 : Dim}
    (h1 : d1 ∈ l) (h2 : d2 ∈ l) (hn : d1.name = d2.name) : d1 = d2 :=
  List.inj_on_of_nodup_map h h1 h2 hn

/-- C1: over spaces with unique dimension names (they are dicts keyed by
name), `_find_conflicts` emits exactly one `new` conflict per child-only
name, exactly one `missing` conflict per parent-only name, exactly one
`changed` conflict per name present in both spaces with unequal descriptors,
no conflict for a name present in both with equal descriptors, and never two
conflicts for the same (name, status) pair. -/
theorem claim_C1_conflict_detection (parent child : Space)
    (hp : (parent.map Dim.name).Nodup) (hc : (child.map Dim.name).Nodup) :
    (∀ n, hasName child n = true → hasName parent n = false →
      cntNS (find_conflicts parent child) n CStatus.new = 1 ∧
      cntNS (find_conflicts parent child) n CStatus.changed = 0 ∧
      cntNS (find_conflicts parent child) n CStatus.missing = 0) ∧
    (∀ n, hasName parent n = true → hasName child n = false →
      cntNS (find_conflicts parent child) n CStatus.missing = 1 ∧
      cntNS (find_conflicts parent child) n CStatus.new = 0 ∧
      cntNS (find_conflicts parent child) n CStatus.changed = 0) ∧
    (∀ d dp, d ∈ child → dp ∈ parent → d.name = dp.name → d ≠ dp →
      cntNS (find_conflicts parent child) d.name CStatus.changed = 1 ∧
      cntNS (find_conflicts parent child) d.name CStatus.new = 0 ∧
      cntNS (find_conflicts parent child) d.name CStatus.missing = 0) ∧
    (∀ d, d ∈ child → d ∈ parent →
      ∀ s, cntNS (find_conflicts parent child) d.name s = 0) ∧
    (∀ n s, cntNS (find_conflicts parent child) n s ≤ 1) := by
  have hfc : ∀ n s, cntNS (find_conflicts parent child) n s
      = cntNS (child.filterMap (childConf parent)) n s
        + cntNS (parent.filterMap (parentConf child)) n s := by
    intro n s
    exact cntNS_append _ _ n s
  have hgc : ∀ d c, childConf parent d = some c → c.dim = d :=
    fun d c h => childConf_dim h
  have hgp : ∀ d c, parentConf child d = some c → c.dim = d :=
    fun d c h => parentConf_dim h
  refine ⟨?_, ?_, ?_, ?_, ?_⟩
  · -- child-only names
    intro n h1 h2
    obtain ⟨d, hd, hdn⟩ := hasName_iff.mp h1
    have hg : childConf parent d
        = some { status := CStatus.new, dim := d, is_solved := false } :=
      childConf_new (by rw [hdn]; exact h2)
    have hcp : ∀ s, cntNS (child.filterMap (childConf parent)) n s
        = if CStatus.new = s then 1 else 0 := by
      intro s
      rw [cntNS_filterMap_found (childConf parent) hgc child hc hd hdn s, hg]
    have hpp : ∀ s, cntNS (parent.filterMap (parentConf child)) n s = 0 := by
      intro s
      refine cntNS_filterMap_zero (parentConf child) hgp parent
        (fun dq hdq hdqn => ?_) s
      exact absurd (hasName_iff.mpr ⟨dq, hdq, hdqn⟩) (by rw [h2]; simp)
    refine ⟨?_, ?_, ?_⟩ <;> rw [hfc, hcp, hpp] <;> simp
  · -- parent-only names
    intro n h1 h2
    obtain ⟨d, hd, hdn⟩ := hasName_iff.mp h1
    have hg : parentConf child d
        = some { status := CStatus.missing, dim := d, is_solved := false } :=
      parentConf_missing (by rw [hdn]; exact h2)
    have hpp : ∀ s, cntNS (parent.filterMap (parentConf child)) n s
        = if CStatus.missing = s then 1 else 0 := by
      intro s
      rw [cntNS_filterMap_found (parentConf child) hgp parent hp hd hdn s, hg]
    have hcp : ∀ s, cntNS (child.filterMap (childConf parent)) n s = 0 := by
      intro s
      refine cntNS_filterMap_zero (childConf parent) hgc child
        (fun dq hdq hdqn => ?_) s
      exact absurd (hasName_iff.mpr ⟨dq, hdq, hdqn⟩) (by rw [h2]; simp)
    refine ⟨?_, ?_, ?_⟩ <;> rw [hfc, hcp, hpp] <;> simp
  · -- present in both, descriptors unequal
    intro d dp hd hdp hnn hne
    have hpn : hasName parent d.name = true :=
      hasName_iff.mpr ⟨dp, hdp, hnn.symm⟩
    have hdnp : d ∉ parent := fun hin => hne (name_unique hp hin hdp hnn)
    have hg : childConf parent d
        = some { status := CStatus.changed, dim := d, is_solved := false } :=
      childConf_changed hpn hdnp
    have hcp : ∀ s, cntNS (child.filterMap (childConf parent)) d.name s
        = if CStatus.changed = s then 1 else 0 := by
      intro s
      rw [cntNS_filterMap_found (childConf parent) hgc child hc hd rfl s, hg]
    have hpp : ∀ s, cntNS (parent.filterMap (parentConf child)) d.name s
        = 0 := by
      intro s
      refine cntNS_filterMap_zero (parentConf child) hgp parent
        (fun dq hdq hdqn => ?_) s
      exact parentConf_none (by rw [hdqn]; exact hasName_iff.mpr ⟨d, hd, rfl⟩)
    refine ⟨?_, ?_, ?_⟩ <;> rw [hfc, hcp, hpp] <;> simp
  · -- present and identical in both
    intro d hd hdpar s
    have hcp : cntNS (child.filterMap (childConf parent)) d.name s = 0 := by
      refine cntNS_filterMap_zero (childConf parent) hgc child
        (fun dq hdq hdqn => ?_) s
      have : dq = d := name_unique hc hdq hd hdqn
      subst this
      exact childConf_none hdpar
    have hpp : cntNS (parent.filterMap (parentConf child)) d.name s = 0 := by
      refine cntNS_filterMap_zero (parentConf child) hgp parent
        (fun dq hdq hdqn => ?_) s
      exact parentConf_none (by rw [hdqn]; exact hasName_iff.mpr ⟨d, hd, rfl⟩)
    rw [hfc, hcp, hpp]
  · -- no (name, status) pair is emitted twice
    intro n s
    by_cases hcn : hasName child n = true
    · have hpp : cntNS (parent.filterMap (parentConf child)) n s = 0 := by
        refine cntNS_filterMap_zero (parentConf child) hgp parent
          (fun dq hdq hdqn => ?_) s
        exact parentConf_none (by rw [hdqn]; exact hcn)
      obtain ⟨d, hd, hdn⟩ := hasName_iff.mp hcn
      have hcp := cntNS_filterMap_found (childConf parent) hgc child hc hd
        hdn s
      rw [hfc, hpp, hcp]
      cases childConf parent d with
      | none => simp
      | some c => by_cases hs : c.status = s <;> simp [hs]
    · have hcp : cntNS (child.filterMap (childConf parent)) n s = 0 := by
        refine cntNS_filterMap_zero (childConf parent) hgc child
          (fun dq hdq hdqn => ?_) s
        exact absurd (hasName_iff.mpr ⟨dq, hdq, hdqn⟩) hcn
      by_cases hpn : hasName parent n = true
      · obtain ⟨d, hd, hdn⟩ := hasName_iff.mp hpn
        have hpp := cntNS_filterMap_found (parentConf child) hgp parent hp
          hd hdn s
        rw [hfc, hcp, hpp]
        cases parentConf child d with
        | none => simp
        | some c => by_cases hs : c.status = s <;> simp [hs]
      · have hpp : cntNS (parent.filterMap (parentConf child)) n s = 0 := by
          refine cntNS_filterMap_zero (parentConf child) hgp parent
            (fun dq hdq hdqn => ?_) s
          exact absurd (hasName_iff.mpr ⟨dq, hdq, hdqn⟩) hpn
        rw [hfc, hcp, hpp]
        simp

def wParent : Space :=
  [{ name := ['/', 'm'], prior := 0 }, { name := ['/', 'c'], prior := 0 }]

def wChild : Space :=
  [{ name := ['/', 'n'], prior := 1 }, { name := ['/', 'c'], prior := 1 }]

/-- Witness for C1 on the spec's end-to-end spaces: `/n` child-only, `/m`
parent-only, `/c` in both with different priors. -/
theorem claim_C1_conflict_detection_witness :
    cntNS (find_conflicts wParent wChild) ['/', 'n'] CStatus.new = 1 ∧
    cntNS (find_conflicts wParent wChild) ['/', 'm'] CStatus.missing = 1 ∧
    cntNS (find_conflicts wParent wChild) ['/', 'c'] CStatus.changed = 1 := by
  have h := claim_C1_conflict_detection wParent wChild (by decide) (by decide)
  exact ⟨(h.1 ['/', 'n'] (by decide) (by decide)).1,
    (h.2.1 ['/', 'm'] (by decide) (by decide)).1,
    (h.2.2.1 { name := ['/', 'c'], prior := 1 } { name := ['/', 'c'], prior := 0 }
      (by decide) (by decide) rfl (by decide)).1⟩

/-! ## C10 -/

theorem filterMap_names_sublist (g : Dim → Option Conflict)
    (hg : ∀ d c, g d = some c → c.dim = d) :
    ∀ l : List Dim,
      ((l.filterMap g).map (fun c => c.dim.name)).Sublist (l.map Dim.name)
  | [] => by simp
  | d0 :: rest => by
      rw [List.filterMap_cons]
      cases hgd : g d0 with
      | none =>
          rw [List.map_cons]
          exact (filterMap_names_sublist g hg rest).cons d0.name
      | some c =>
          rw [List.map_cons, List.map_cons, hg d0 c hgd]
          exact (filterMap_names_sublist g hg rest).cons₂ d0.name

theorem parentConf_not_in_child {child : Space} {d : Dim} {c : Conflict}
    (h : parentConf child d = some c) : hasName child c.dim.name = false := by
  unfold parentConf at h
  split_ifs at h with hcn
  simp only [Option.some.injEq] at h
  rw [← h]
  exact Bool.not_eq_true _ ▸ hcn

theorem find_conflicts_names_nodup (parent child : Space)
    (hp : (parent.map Dim.name).Nodup) (hc : (child.map Dim.name).Nodup) :
    ((find_conflicts parent child).map (fun c => c.dim.name)).Nodup := by
  unfold find_conflicts
  rw [List.map_append]
  refine List.Nodup.append
    ((filterMap_names_sublist _ (fun _ _ h => childConf_dim h) child).nodup hc)
    ((filterMap_names_sublist _ (fun _ _ h => parentConf_dim h) parent).nodup hp)
    ?_
  intro n hn1 hn2
  obtain ⟨c1, hc1, hc1n⟩ := List.mem_map.mp hn1
  obtain ⟨d1, hd1, hg1⟩ := List.mem_filterMap.mp hc1
  obtain ⟨c2, hc2, hc2n⟩ := List.mem_map.mp hn2
  obtain ⟨d2, hd2, hg2⟩ := List.mem_filterMap.mp hc2
  have h1 : hasName child n = true := by
    rw [← hc1n, childConf_dim hg1]
    exact hasName_iff.mpr ⟨d1, hd1, rfl⟩
  have h2 : hasName child n = false := by
    rw [← hc2n]
    exact parentConf_not_in_child hg2
  rw [h1] at h2
  exact absurd h2 (by simp)

theorem foldl_setSolved_csig :
    ∀ (idxs : List Nat) (l : List Conflict) (b : Bool),
      (idxs.foldl (fun acc j => setSolved acc j b) l).map csig = l.map csig
  | [], _, _ => rfl
  | j :: rest, l, b => by
      show (rest.foldl _ (setSolved l j b)).map csig = _
      rw [foldl_setSolved_csig rest (setSolved l j b) b, setSolved_csig]

theorem remove_from_operations_sig (st : BState) (i : Nat) :
    sig (remove_from_operations st i) = sig st := by
  unfold sig remove_from_operations
  by_cases h1 : i ∈ st.addOps <;> by_cases h2 : i ∈ st.removeOps <;>
    simp [h1, h2, setSolved_csig, foldl_setSolved_csig]

theorem reset_go_sig :
    ∀ (names : List Str) (st : BState) (arg : Str),
      sig (exSt (reset_go st arg names)) = sig st
  | [], _, _ => rfl
  | _ :: rest, st, arg => by
      unfold reset_go
      cases hm : mark_as st arg allStatuses false with
      | none => rfl
      | some p =>
          obtain ⟨i, st1⟩ := p
          rw [reset_go_sig rest (remove_from_operations st1 i) arg,
            remove_from_operations_sig, mark_as_sig hm]

theorem rename_dimension_sig {st : BState} {o n : Str} {st' : BState}
    (h : rename_dimension st o n = some st') : sig st' = sig st := by
  unfold rename_dimension at h
  cases h1 : assert_has_status st o [CStatus.missing] with
  | none => rw [h1] at h; exact absurd h (by simp)
  | some i =>
      rw [h1] at h
      cases h2 : assert_has_status st n [CStatus.new] with
      | none => rw [h2] at h; exact absurd h (by simp)
      | some j =>
          rw [h2] at h
          simp only [Option.some.injEq] at h
          rw [← h]
          show (setSolved (setSolved st.conflicts i true) j true).map csig = _
          rw [setSolved_csig, setSolved_csig]
          rfl

theorem filter_name_le_one (p : Conflict → Bool) (n : Str)
    (hp : ∀ c, p c = true → c.dim.name = n) :
    ∀ l : List Conflict, (l.map (fun c => c.dim.name)).Nodup →
      (l.filter p).length ≤ 1
  | [], _ => by simp
  | c0 :: rest, hnd => by
      rw [List.map_cons, List.nodup_cons] at hnd
      by_cases h0 : p c0 = true
      · rw [List.filter_cons_of_pos h0]
        have hnil : rest.filter p = [] := by
          rw [List.filter_eq_nil_iff]
          intro a ha hpa
          exact hnd.1 ((hp c0 h0).trans (hp a hpa).symm ▸
            List.mem_map_of_mem (fun c => c.dim.name) ha)
        rw [hnil]
        simp
      · rw [List.filter_cons_of_neg h0]
        exact filter_name_le_one p n hp rest hnd.2

/-- C10 (implicit invariant): conflict detection over uniquely-named spaces
never assigns the same dimension name to two conflicts; every public
resolution operation preserves the conflict set's membership (its list of
(dimension, status) signatures — only `is_solved` flags change, in success
and in failure outcomes alike); and under that name-uniqueness every lookup
a public operation performs (the status-filtered `.index` of
`_assert_has_status` and the name-only `.index` of `get_dimension_conflict`)
matches at most one conflict, so an ambiguous-lookup case is unreachable. -/
theorem claim_C10_unique_conflict_per_name :
    (∀ parent child : Space, (parent.map Dim.name).Nodup →
      (child.map Dim.name).Nodup →
      ((find_conflicts parent child).map (fun c => c.dim.name)).Nodup) ∧
    (∀ (st : BState) (raw : Str),
      sig (exSt (add_dimension st raw)) = sig st ∧
      sig (exSt (remove_dimension st raw)) = sig st ∧
      sig (exSt (reset_dimension st raw)) = sig st) ∧
    (∀ (st : BState) (o n : Str) (st' : BState),
      rename_dimension st o n = some st' → sig st' = sig st) ∧
    (∀ st : BState, (st.conflicts.map (fun c => c.dim.name)).Nodup →
      ∀ (n : Str) (statuses : List CStatus),
        (st.conflicts.filter (fun c =>
          decide (c.status ∈ statuses) && c.dim.name == '/' :: n)).length ≤ 1 ∧
        (st.conflicts.filter (fun c => c.dim.name == '/' :: n)).length ≤ 1) := by
  refine ⟨find_conflicts_names_nodup, ?_, fun _ _ _ _ h =>
    rename_dimension_sig h, ?_⟩
  · intro st raw
    exact ⟨do_basic_go_sig _ st _ OpKind.add,
      do_basic_go_sig _ st _ OpKind.remove, reset_go_sig _ st raw⟩
  · intro st hnd n statuses
    constructor
    · refine filter_name_le_one _ ('/' :: n) (fun c hc => ?_) st.conflicts hnd
      rw [Bool.and_eq_true] at hc
      exact eq_of_beq hc.2
    · exact filter_name_le_one _ ('/' :: n) (fun c hc => eq_of_beq hc)
        st.conflicts hnd

/-- Witness for C10: detection on the concrete spaces and a concrete
lookup-uniqueness instance. -/
theorem claim_C10_unique_conflict_per_name_witness :
    ((find_conflicts wParent wChild).map (fun c => c.dim.name)).Nodup ∧
    (cexC6.conflicts.filter (fun c =>
      c.dim.name == '/' :: ['d', 'b', '.', 'h', 'o', 's', 't'])).length ≤ 1 :=
  ⟨claim_C10_unique_conflict_per_name.1 wParent wChild (by decide) (by decide),
   (claim_C10_unique_conflict_per_name.2.2.2 cexC6 (by decide)
     ['d', 'b', '.', 'h', 'o', 's', 't'] []).2⟩

/-! ## C2 -/

theorem findIdxW_some_mem {α : Type} (p : α → Bool) :
    ∀ {l : List α} {k : Nat}, findIdxW p l = some k → ∃ a ∈ l, p a = true
  | [], _, h => absurd h (by simp [findIdxW])
  | a :: rest, k, h => by
      simp only [findIdxW] at h
      by_cases hp : p a = true
      · exact ⟨a, by simp, hp⟩
      · rw [if_neg hp] at h
        cases hr : findIdxW p rest with
        | none => rw [hr] at h; exact absurd h (by simp)
        | some k2 =>
            obtain ⟨b, hb, hpb⟩ := findIdxW_some_mem p hr
            exact ⟨b, by simp [hb], hpb⟩

theorem findIdxW_some_at {α : Type} (p : α → Bool) :
    ∀ {l : List α} {k : Nat}, findIdxW p l = some k →
      ∃ h : k < l.length, p (l.get ⟨k, h⟩) = true
  | [], _, h => absurd h (by simp [findIdxW])
  | a :: rest, k, h => by
      simp only [findIdxW] at h
      by_cases hp : p a = true
      · rw [if_pos hp] at h
        simp only [Option.some.injEq] at h
        subst h
        exact ⟨by simp, hp⟩
      · rw [if_neg hp] at h
        cases hr : findIdxW p rest with
        | none => rw [hr] at h; exact absurd h (by simp)
        | some k2 =>
            rw [hr] at h
            simp only [Option.map_some', Option.some.injEq] at h
            subst h
            obtain ⟨hlt, hpk⟩ := findIdxW_some_at p hr
            exact ⟨by simpa using Nat.succ_lt_succ hlt, hpk⟩

theorem findIdxW_status_mono {nm : Str} {sts sts' : List CStatus}
    (hsub : ∀ s ∈ sts, s ∈ sts') :
    ∀ {l : List Conflict} {i : Nat},
      (l.map (fun c => c.dim.name)).Nodup →
      findIdxW (fun c => decide (c.status ∈ sts) && c.dim.name == nm) l
        = some i →
      findIdxW (fun c => decide (c.status ∈ sts') && c.dim.name == nm) l
        = some i
  | [], _, _, h => absurd h (by simp [findIdxW])
  | c0 :: rest, i, hnd, h => by
      rw [List.map_cons, List.nodup_cons] at hnd
      simp only [findIdxW] at h ⊢
      by_cases hname : (c0.dim.name == nm) = true
      · by_cases hst : c0.status ∈ sts
        · rw [if_pos (by rw [hname, decide_eq_true hst]; rfl)] at h
          rw [if_pos (by rw [hname, decide_eq_true (hsub _ hst)]; rfl)]
          exact h
        · rw [if_neg (by simp [hst])] at h
          cases hr : findIdxW
              (fun c => decide (c.status ∈ sts) && c.dim.name == nm) rest with
          | none => rw [hr] at h; exact absurd h (by simp)
          | some k =>
              exfalso
              obtain ⟨b, hb, hpb⟩ := findIdxW_some_mem _ hr
              rw [Bool.and_eq_true] at hpb
              apply hnd.1
              rw [eq_of_beq hname, ← eq_of_beq hpb.2]
              exact List.mem_map_of_mem (fun c => c.dim.name) hb
      · rw [if_neg (by simp [hname])] at h
        rw [if_neg (by simp [hname])]
        cases hr : findIdxW
            (fun c => decide (c.status ∈ sts) && c.dim.name == nm) rest with
        | none => rw [hr] at h; exact absurd h (by simp)
        | some k =>
            rw [hr] at h
            rw [findIdxW_status_mono hsub hnd.2 hr]
            exact h

theorem assert_has_status_mono {st : BState} {nm : Str}
    {sts sts' : List CStatus} {i : Nat}
    (hnd : (st.conflicts.map (fun c => c.dim.name)).Nodup)
    (hsub : ∀ s ∈ sts, s ∈ sts')
    (h : assert_has_status st nm sts = some i) :
    assert_has_status st nm sts' = some i :=
  findIdxW_status_mono hsub hnd h

theorem setSolved_absorb :
    ∀ (l : List Conflict) (i : Nat) (b b' : Bool),
      setSolved (setSolved l i b) i b' = setSolved l i b'
  | [], _, _, _ => rfl
  | _ :: _, 0, _, _ => rfl
  | c :: cs, i + 1, b, b' => by
      simp only [setSolved, setSolved_absorb cs i b b']

theorem setSolved_comm :
    ∀ (l : List Conflict) (i j : Nat) (b b' : Bool), i ≠ j →
      setSolved (setSolved l i b) j b' = setSolved (setSolved l j b') i b
  | [], _, _, _, _, _ => rfl
  | _ :: _, 0, 0, _, _, h => absurd rfl h
  | _ :: _, 0, _ + 1, _, _, _ => rfl
  | _ :: _, _ + 1, 0, _, _, _ => rfl
  | c :: cs, i + 1, j + 1, b, b', h => by
      simp only [setSolved]
      exact congrArg (c :: ·) (setSolved_comm cs i j b b' (fun he => h (by rw [he])))

theorem rename_loop_done :
    ∀ (fuel : Nat) (l : List (Nat × Nat)) (i k : Nat), l.length ≤ k →
      rename_loop fuel l i k = (l, [])
  | 0, _, _, _, _ => rfl
  | fuel + 1, l, i, k, h => by
      unfold rename_loop
      rw [dif_neg (by omega)]

theorem rename_loop_spec (i : Nat) (v : Nat × Nat)
    (hv : v.1 = i ∨ v.2 = i) :
    ∀ (fuel : Nat) (l0 : List (Nat × Nat)) (k : Nat),
      (∀ p ∈ l0, p.1 ≠ i ∧ p.2 ≠ i) → v ∉ l0 →
      k ≤ l0.length → l0.length + 1 ≤ fuel + k →
      rename_loop fuel (l0 ++ [v]) i k = (l0, [v.1, v.2])
  | 0, l0, k, _, _, hk, hfuel => by omega
  | fuel + 1, l0, k, hno, hnin, hk, hfuel => by
      unfold rename_loop
      rw [dif_pos (by simp; omega)]
      by_cases hklt : k < l0.length
      · have hget : (l0 ++ [v]).get ⟨k, by simp; omega⟩ = l0.get ⟨k, hklt⟩ := by
          simp [List.getElem_append_left, hklt]
        rw [hget]
        have hmem := hno (l0.get ⟨k, hklt⟩) (l0.get_mem _ _)
        rw [if_neg (by rw [not_or]; exact ⟨hmem.1, hmem.2⟩)]
        exact rename_loop_spec i v hv fuel l0 (k + 1) hno hnin (by omega)
          (by omega)
      · have hkeq : k = l0.length := by omega
        subst hkeq
        have hget : (l0 ++ [v]).get ⟨l0.length, by simp⟩ = v := by
          simp [List.getElem_concat_length]
        rw [hget, if_pos hv]
        have herase : (l0 ++ [v]).erase v = l0 := by
          rw [List.erase_append_right _ hnin, List.erase_cons_head,
            List.append_nil]
        rw [herase, rename_loop_done fuel l0 i (l0.length + 1) (by omega)]

theorem names_eq_of_sig {st1 st2 : BState} (h : sig st1 = sig st2) :
    st1.conflicts.map (fun c => c.dim.name)
      = st2.conflicts.map (fun c => c.dim.name) := by
  have hgen : ∀ st : BState, st.conflicts.map (fun c => c.dim.name)
      = (sig st).map (fun p => p.1.name) := by
    intro st
    unfold sig csig
    rw [List.map_map]
    rfl
  rw [hgen st1, hgen st2, h]

theorem remove_from_operations_eval (c : List Conflict) (ao ro : List Nat)
    (ren rl : List (Nat × Nat)) (i : Nat) (uns : List Nat)
    (hloop : rename_loop ren.length ren i 0 = (rl, uns))
    (hai : i ∉ ao) (hri : i ∉ ro) :
    remove_from_operations ⟨c, ao, ro, ren⟩ i
      = ⟨uns.foldl (fun l k => setSolved l k false) c, ao, ro, rl⟩ := by
  unfold remove_from_operations
  simp only [hloop, if_neg hai, if_neg hri]

def cexC2 : BState :=
  { conflicts := [{ status := CStatus.missing,
                    dim := { name := ['/', 'a'], prior := 0 },
                    is_solved := false },
                  { status := CStatus.new,
                    dim := { name := ['/', 'b'], prior := 1 },
                    is_solved := false }],
    addOps := [], removeOps := [], renameOps := [] }

def cexC2added : BState :=
  { conflicts := [{ status := CStatus.missing,
                    dim := { name := ['/', 'a'], prior := 0 },
                    is_solved := false },
                  { status := CStatus.new,
                    dim := { name := ['/', 'b'], prior := 1 },
                    is_solved := true }],
    addOps := [1], removeOps := [], renameOps := [] }

def cexC2renamed : BState :=
  { conflicts := [{ status := CStatus.missing,
                    dim := { name := ['/', 'a'], prior := 0 },
                    is_solved := true },
                  { status := CStatus.new,
                    dim := { name := ['/', 'b'], prior := 1 },
                    is_solved := true }],
    addOps := [1], removeOps := [], renameOps := [(0, 1)] }

/-- C2 counterexample: after `add_dimension "b"` the `new` conflict for `b`
is already solved (not unsolved), yet `rename_dimension ("a", "b")` still
succeeds — the lookups in `_assert_has_status` never test `is_solved`, so
the claim's "succeeds exactly when … unsolved" is false. -/
theorem claim_C2_counterexample :
    add_dimension cexC2 ['b'] = Except.ok cexC2added ∧
    cexC2added.conflicts.map Conflict.is_solved = [false, true] ∧
    rename_dimension cexC2added ['a'] ['b'] = some cexC2renamed := by
  refine ⟨rfl, by decide, by decide⟩

/-- C2 amended: `rename_dimension(old, new)` succeeds exactly when `old`
resolves to a `missing` conflict and `new` to a `new` conflict — solved or
not, since the lookups never check `is_solved` — and raises
(`ValueError` from `.index`, the ConflictNotFound signal) when either lookup
fails, leaving the state unchanged.  On success both conflicts are marked
solved and the pair is appended to the `rename` operation list; a subsequent
`reset_dimension` on either plain name (when neither conflict appears
elsewhere in the operation log) unsolves both conflicts and removes exactly
the pair, restoring the operation log. -/
theorem claim_C2_amended :
    (∀ (st : BState) (o n : Str),
      (rename_dimension st o n).isSome ↔
        ((assert_has_status st o [CStatus.missing]).isSome ∧
         (assert_has_status st n [CStatus.new]).isSome)) ∧
    (∀ (st : BState) (o n : Str) (i j : Nat),
      literalTok o → literalTok n →
      (st.conflicts.map (fun c => c.dim.name)).Nodup →
      assert_has_status st o [CStatus.missing] = some i →
      assert_has_status st n [CStatus.new] = some j →
      (∀ p ∈ st.renameOps, p.1 ≠ i ∧ p.2 ≠ i ∧ p.1 ≠ j ∧ p.2 ≠ j) →
      i ∉ st.addOps → j ∉ st.addOps → i ∉ st.removeOps → j ∉ st.removeOps →
      rename_dimension st o n = some
        ⟨setSolved (setSolved st.conflicts i true) j true, st.addOps,
          st.removeOps, st.renameOps ++ [(i, j)]⟩ ∧
      reset_dimension
          ⟨setSolved (setSolved st.conflicts i true) j true, st.addOps,
            st.removeOps, st.renameOps ++ [(i, j)]⟩ o
        = Except.ok ⟨setSolved (setSolved st.conflicts i false) j false,
            st.addOps, st.removeOps, st.renameOps⟩ ∧
      reset_dimension
          ⟨setSolved (setSolved st.conflicts i true) j true, st.addOps,
            st.removeOps, st.renameOps ++ [(i, j)]⟩ n
        = Except.ok ⟨setSolved (setSolved st.conflicts i false) j false,
            st.addOps, st.removeOps, st.renameOps⟩) := by
  constructor
  · intro st o n
    unfold rename_dimension
    cases h1 : assert_has_status st o [CStatus.missing] <;>
      cases h2 : assert_has_status st n [CStatus.new] <;> simp
  · intro st o n i j hlito hlitn hnd hao han hren haddi haddj hremi hremj
    have hij : i ≠ j := by
      intro he
      obtain ⟨hi1, hpi⟩ := findIdxW_some_at _ hao
      obtain ⟨hj1, hpj⟩ := findIdxW_some_at _ han
      rw [Bool.and_eq_true] at hpi hpj
      have h1 := of_decide_eq_true hpi.1
      have h2 := of_decide_eq_true hpj.1
      simp only [List.mem_singleton] at h1 h2
      subst he
      rw [h1] at h2
      exact absurd h2 (by decide)
    have hpairR : (i, j) ∉ st.renameOps := fun hmm => (hren _ hmm).1 rfl
    set stRen : BState :=
      ⟨setSolved (setSolved st.conflicts i true) j true, st.addOps,
        st.removeOps, st.renameOps ++ [(i, j)]⟩ with hstRen
    set target : BState :=
      ⟨setSolved (setSolved st.conflicts i false) j false, st.addOps,
        st.removeOps, st.renameOps⟩ with htarget
    have hrename : rename_dimension st o n = some stRen := by
      unfold rename_dimension
      rw [hao, han]
      show some ⟨_, _, _, put_pair st.renameOps (i, j)⟩ = some stRen
      unfold put_pair
      rw [if_neg hpairR]
    have hsigRen : sig stRen = sig st := by
      show (setSolved (setSolved st.conflicts i true) j true).map csig
        = st.conflicts.map csig
      rw [setSolved_csig, setSolved_csig]
    have hsub1 : ∀ s ∈ [CStatus.missing], s ∈ allStatuses := by decide
    have hsub2 : ∀ s ∈ [CStatus.new], s ∈ allStatuses := by decide
    have hassertO : assert_has_status stRen o allStatuses = some i := by
      rw [assert_has_status_congr hsigRen]
      exact assert_has_status_mono hnd hsub1 hao
    have hassertN : assert_has_status stRen n allStatuses = some j := by
      rw [assert_has_status_congr hsigRen]
      exact assert_has_status_mono hnd hsub2 han
    refine ⟨hrename, ?_, ?_⟩
    · -- reset on the old (missing) name
      set c1 : List Conflict :=
        setSolved (setSolved (setSolved st.conflicts i true) j true) i false
        with hc1
      set st1 : BState :=
        ⟨c1, st.addOps, st.removeOps, st.renameOps ++ [(i, j)]⟩ with hst1
      have hmarkO : mark_as stRen o allStatuses false = some (i, st1) := by
        unfold mark_as
        rw [hassertO]
      have hloopO : rename_loop (st.renameOps ++ [(i, j)]).length
          (st.renameOps ++ [(i, j)]) i 0 = (st.renameOps, [i, j]) := by
        have h := rename_loop_spec i (i, j) (Or.inl rfl)
          ((st.renameOps ++ [(i, j)]).length) st.renameOps 0
          (fun p hp => ⟨(hren p hp).1, (hren p hp).2.1⟩) hpairR
          (Nat.zero_le _) (by simp)
        simpa using h
      have hconf : [i, j].foldl (fun l k => setSolved l k false) c1
          = setSolved (setSolved st.conflicts i false) j false := by
        show setSolved (setSolved c1 i false) j false = _
        rw [hc1, setSolved_absorb,
          setSolved_comm (setSolved st.conflicts i true) j i true false
            (Ne.symm hij),
          setSolved_absorb, setSolved_absorb]
      have hrfo : remove_from_operations st1 i = target := by
        rw [hst1, remove_from_operations_eval c1 st.addOps st.removeOps
          (st.renameOps ++ [(i, j)]) st.renameOps i [i, j] hloopO haddi hremi,
          hconf]
      unfold reset_dimension
      rw [get_names_literal stRen allStatuses hlito]
      show reset_go stRen o [o] = Except.ok target
      unfold reset_go
      rw [hmarkO]
      show reset_go (remove_from_operations st1 i) o [] = Except.ok target
      rw [hrfo]
      rfl
    · -- reset on the new name
      set c1 : List Conflict :=
        setSolved (setSolved (setSolved st.conflicts i true) j true) j false
        with hc1
      set st1 : BState :=
        ⟨c1, st.addOps, st.removeOps, st.renameOps ++ [(i, j)]⟩ with hst1
      have hmarkN : mark_as stRen n allStatuses false = some (j, st1) := by
        unfold mark_as
        rw [hassertN]
      have hloopN : rename_loop (st.renameOps ++ [(i, j)]).length
          (st.renameOps ++ [(i, j)]) j 0 = (st.renameOps, [i, j]) := by
        have h := rename_loop_spec j (i, j) (Or.inr rfl)
          ((st.renameOps ++ [(i, j)]).length) st.renameOps 0
          (fun p hp => ⟨(hren p hp).2.2.1, (hren p hp).2.2.2⟩)
          (fun hmm => (hren _ hmm).1 rfl)
          (Nat.zero_le _) (by simp)
        simpa using h
      have hconf : [i, j].foldl (fun l k => setSolved l k false) c1
          = setSolved (setSolved st.conflicts i false) j false := by
        show setSolved (setSolved c1 i false) j false = _
        rw [hc1, setSolved_absorb,
          setSolved_comm (setSolved st.conflicts i true) j i false false
            (Ne.symm hij)]
        rw [setSolved_absorb, setSolved_absorb]
      have hrfo : remove_from_operations st1 j = target := by
        rw [hst1, remove_from_operations_eval c1 st.addOps st.removeOps
          (st.renameOps ++ [(i, j)]) st.renameOps j [i, j] hloopN haddj hremj,
          hconf]
      unfold reset_dimension
      rw [get_names_literal stRen allStatuses hlitn]
      show reset_go stRen n [n] = Except.ok target
      unfold reset_go
      rw [hmarkN]
      show reset_go (remove_from_operations st1 j) n [] = Except.ok target
      rw [hrfo]
      rfl

/-- Witness for the amended C2 at the concrete two-conflict state. -/
theorem claim_C2_amended_witness :
    rename_dimension cexC2 ['a'] ['b'] = some
      ⟨setSolved (setSolved cexC2.conflicts 0 true) 1 true, cexC2.addOps,
        cexC2.removeOps, cexC2.renameOps ++ [(0, 1)]⟩ ∧
    reset_dimension
        ⟨setSolved (setSolved cexC2.conflicts 0 true) 1 true, cexC2.addOps,
          cexC2.removeOps, cexC2.renameOps ++ [(0, 1)]⟩ ['a']
      = Except.ok ⟨setSolved (setSolved cexC2.conflicts 0 false) 1 false,
          cexC2.addOps, cexC2.removeOps, cexC2.renameOps⟩ ∧
    reset_dimension
        ⟨setSolved (setSolved cexC2.conflicts 0 true) 1 true, cexC2.addOps,
          cexC2.removeOps, cexC2.renameOps ++ [(0, 1)]⟩ ['b']
      = Except.ok ⟨setSolved (setSolved cexC2.conflicts 0 false) 1 false,
          cexC2.addOps, cexC2.removeOps, cexC2.renameOps⟩ :=
  claim_C2_amended.2 cexC2 ['a'] ['b'] 0 1 (by decide) (by decide) (by decide)
    (by decide) (by decide) (by decide) (by decide) (by decide) (by decide)
    (by decide)

/-! ## C9 -/

/-- C9, evaluated on the code: `create_adaptors` does build one adapter call
per recorded payload — one per `add` entry, one per `remove` entry, one per
`rename` pair — into its local `adaptors` list, but the function body has no
`return` statement, so the call returns `None` rather than the adapter
list the claim describes.  (The adapter constructors themselves are stubs
returning `None`.) -/
theorem claim_C9_create_adaptors_missing_return :
    (∀ st : BState, create_adaptors st = none) ∧
    (∀ st : BState, (create_adaptors_list st).length
      = st.addOps.length + st.renameOps.length + st.removeOps.length) ∧
    create_adaptors cexC2renamed = none ∧
    (create_adaptors_list cexC2renamed).length = 2 := by
  refine ⟨fun st => rfl, fun st => by simp [create_adaptors_list]; omega,
    rfl, by decide⟩

/-! ## C8 -/

/-- C8 counterexample: with the duplicated drop token `a~-` in
`["a~-", "b", "a~-"]`, both scans of the duplicate resolve `args.index` to
the *first* occurrence, queueing index 0 twice; the deferred double deletion
then removes the first `a~-` and the marker-free token `b`, so one drop
token survives in the list and an unmarked token does not pass through. -/
theorem claim_C8_counterexample :
    interpret_commandline [['a', '~', '-'], ['b'], ['a', '~', '-']]
      = Except.ok ([['a', '~', '-']],
          { addq := [], remq := [['a', '~', '-'], ['a', '~', '-']],
            renq := [] }) ∧
    containsSub kwMinus ['a', '~', '-'] = true ∧
    containsSub kwPlus ['b'] = false ∧
    containsSub kwMinus ['b'] = false ∧
    containsSub kwArrow ['b'] = false :=
  ⟨rfl, by decide, by decide, by decide, by decide⟩

/-- Marker stripped/rewritten form of a token, as space construction will
see it. -/
def rwTok (a : Str) : Str :=
  if containsSub kwPlus a then replaceTP a else a

def isDropArrow (a : Str) : Bool :=
  containsSub kwMinus a || containsSub kwArrow a

/-- The argument list the parser is specified to leave behind: drop and
rename tokens removed, append tokens rewritten in place, the rest kept. -/
def keepMap (L : List Str) : List Str :=
  L.filterMap (fun a => if isDropArrow a then none else some (rwTok a))

def markerCount (a : Str) : Nat :=
  (if containsSub kwPlus a then 1 else 0)
    + (if containsSub kwMinus a then 1 else 0)
    + (if containsSub kwArrow a then 1 else 0)

/-- Indices (relative to `base`) of the tokens queued for deletion. -/
def dropPositions (base : Nat) : List Str → List Nat
  | [] => []
  | a :: rest =>
    if isDropArrow a then base :: dropPositions (base + 1) rest
    else dropPositions (base + 1) rest

theorem get_append_mid :
    ∀ (xs : List Str) (b : Str) (ys : List Str)
      (h : xs.length < (xs ++ b :: ys).length),
      (xs ++ b :: ys).get ⟨xs.length, h⟩ = b
  | [], _, _, _ => rfl
  | _ :: xs, b, ys, _ => get_append_mid xs b ys (by simp)

theorem set_append_mid :
    ∀ (xs : List Str) (b c : Str) (ys : List Str),
      (xs ++ b :: ys).set xs.length c = xs ++ c :: ys
  | [], _, _, _ => rfl
  | x :: xs, b, c, ys => by
      simp only [List.cons_append, List.set_cons_succ, List.length_cons]
      rw [set_append_mid xs b c ys]

theorem eraseIdx_append_mid :
    ∀ (xs : List Str) (b : Str) (ys : List Str),
      (xs ++ b :: ys).eraseIdx xs.length = xs ++ ys
  | [], _, _ => rfl
  | x :: xs, b, ys => by
      simp only [List.cons_append, List.eraseIdx_cons_succ, List.length_cons]
      rw [eraseIdx_append_mid xs b ys]

theorem findIdxW_first :
    ∀ (xs : List Str) (b : Str) (ys : List Str), (∀ x ∈ xs, x ≠ b) →
      findIdxW (fun a => a == b) (xs ++ b :: ys) = some xs.length
  | [], b, ys, _ => by simp [findIdxW]
  | x :: xs, b, ys, h => by
      simp only [List.cons_append, findIdxW]
      rw [if_neg (by simp [h x (by simp)])]
      simp only [List.append_eq]
      rw [findIdxW_first xs b ys (fun x hx => h x (by simp [hx]))]
      rfl

theorem marker_unique {a : Str} (h : markerCount a ≤ 1) :
    (containsSub kwPlus a = true →
      containsSub kwMinus a = false ∧ containsSub kwArrow a = false) ∧
    (containsSub kwMinus a = true →
      containsSub kwPlus a = false ∧ containsSub kwArrow a = false) ∧
    (containsSub kwArrow a = true →
      containsSub kwPlus a = false ∧ containsSub kwMinus a = false) := by
  unfold markerCount at h
  by_cases h1 : containsSub kwPlus a <;> by_cases h2 : containsSub kwMinus a <;>
    by_cases h3 : containsSub kwArrow a <;>
    simp [h1, h2, h3] at h ⊢

theorem procKeyword_no (kw arg : Str) (args : List Str) (td : List Nat)
    (q : CmdQueues) (h : containsSub kw arg = false) :
    procKeyword kw arg args td q = Except.ok (args, td, q) := by
  unfold procKeyword
  rw [h]
  simp

theorem procKeyword_plus (arg : Str) (xs ys : List Str) (td : List Nat)
    (q : CmdQueues) (hfst : ∀ x ∈ xs, x ≠ arg)
    (h : containsSub kwPlus arg = true) :
    procKeyword kwPlus arg (xs ++ arg :: ys) td q
      = Except.ok (xs ++ replaceTP arg :: ys, td,
          { q with addq := q.addq ++ [arg] }) := by
  unfold procKeyword
  rw [h, if_pos rfl, findIdxW_first xs arg ys hfst]
  show Except.ok ((xs ++ arg :: ys).set xs.length (replaceTP arg), td,
    pushQueue q kwPlus arg) = _
  rw [set_append_mid]
  unfold pushQueue
  rw [if_pos rfl]

theorem procKeyword_mark (kw arg : Str) (xs ys : List Str) (td : List Nat)
    (q : CmdQueues) (hfst : ∀ x ∈ xs, x ≠ arg)
    (h : containsSub kw arg = true) (hkw : kw ≠ kwPlus) :
    procKeyword kw arg (xs ++ arg :: ys) td q
      = Except.ok (xs ++ arg :: ys, td ++ [xs.length], pushQueue q kw arg) := by
  unfold procKeyword
  rw [h, if_pos rfl, findIdxW_first xs arg ys hfst]
  show (if kw = kwPlus then _ else
    Except.ok (xs ++ arg :: ys, td ++ [xs.length], pushQueue q kw arg)) = _
  rw [if_neg hkw]

theorem insertDesc_mem (n : Nat) :
    ∀ (l : List Nat) (m : Nat), m ∈ insertDesc n l ↔ m = n ∨ m ∈ l
  | [], m => by simp [insertDesc]
  | k :: ks, m => by
      unfold insertDesc
      by_cases h : k ≤ n
      · rw [if_pos h]
        simp only [List.mem_cons]
      · rw [if_neg h]
        simp only [List.mem_cons, insertDesc_mem n ks m]
        tauto

theorem sortDesc_mem : ∀ (l : List Nat) (m : Nat), m ∈ sortDesc l ↔ m ∈ l
  | [], m => by simp [sortDesc]
  | k :: ks, m => by
      show m ∈ insertDesc k (sortDesc ks) ↔ _
      rw [insertDesc_mem, sortDesc_mem ks m]
      simp

theorem insertDesc_min (a : Nat) :
    ∀ l : List Nat, (∀ m ∈ l, a < m) → insertDesc a l = l ++ [a]
  | [], _ => rfl
  | k :: ks, h => by
      unfold insertDesc
      rw [if_neg (by have := h k (by simp); omega)]
      rw [insertDesc_min a ks (fun m hm => h m (by simp [hm]))]
      rfl

theorem sortDesc_cons_min (a : Nat) (l : List Nat) (h : ∀ m ∈ l, a < m) :
    sortDesc (a :: l) = sortDesc l ++ [a] := by
  show insertDesc a (sortDesc l) = _
  exact insertDesc_min a (sortDesc l) (fun m hm => h m ((sortDesc_mem l m).mp hm))

theorem dropPositions_ge :
    ∀ (l : List Str) (base p : Nat), p ∈ dropPositions base l → base ≤ p
  | [], _, _, h => absurd h (List.not_mem_nil _)
  | a :: rest, base, p, h => by
      unfold dropPositions at h
      by_cases hd : isDropArrow a = true
      · rw [if_pos hd] at h
        rcases List.mem_cons.mp h with he | hm
        · omega
        · have := dropPositions_ge rest (base + 1) p hm
          omega
      · rw [if_neg hd] at h
        have := dropPositions_ge rest (base + 1) p h
        omega

theorem delIdx_append_ok :
    ∀ (xs : List Nat) {l l' : List Str} (ys : List Nat),
      delIdx l xs = Except.ok l' → delIdx l (xs ++ ys) = delIdx l' ys
  | [], l, l', ys, h => by
      simp only [delIdx, Except.ok.injEq] at h
      subst h
      rfl
  | x :: xs, l, l', ys, h => by
      unfold delIdx at h
      by_cases hx : x < l.length
      · rw [if_pos hx] at h
        show (if x < l.length then delIdx (l.eraseIdx x) (xs ++ ys)
          else Except.error ()) = delIdx l' ys
        rw [if_pos hx]
        exact delIdx_append_ok xs ys h
      · rw [if_neg hx] at h
        exact absurd h (by simp)

theorem delIdx_dropPositions :
    ∀ (rest args0 : List Str),
      delIdx (args0 ++ rest.map rwTok)
          (sortDesc (dropPositions args0.length rest))
        = Except.ok (args0 ++ keepMap rest)
  | [], args0 => by simp [dropPositions, sortDesc, delIdx, keepMap]
  | r0 :: rest, args0 => by
      have hIH := delIdx_dropPositions rest (args0 ++ [rwTok r0])
      have hlen : (args0 ++ [rwTok r0]).length = args0.length + 1 := by simp
      have heq : (args0 ++ [rwTok r0]) ++ rest.map rwTok
          = args0 ++ (rwTok r0 :: rest.map rwTok) := by simp
      rw [hlen, heq] at hIH
      by_cases hd : isDropArrow r0 = true
      · have hdp : dropPositions args0.length (r0 :: rest)
            = args0.length :: dropPositions (args0.length + 1) rest := by
          simp only [dropPositions]
          rw [if_pos hd]
        have hkeep : keepMap (r0 :: rest) = keepMap rest := by
          unfold keepMap
          rw [List.filterMap_cons, if_pos hd]
        show delIdx (args0 ++ rwTok r0 :: rest.map rwTok)
          (sortDesc (dropPositions args0.length (r0 :: rest)))
          = Except.ok (args0 ++ keepMap (r0 :: rest))
        rw [hdp, sortDesc_cons_min args0.length _
          (fun m hm => by have := dropPositions_ge rest (args0.length + 1) m hm; omega),
          delIdx_append_ok _ [args0.length] hIH, hkeep]
        unfold delIdx
        rw [if_pos (by simp)]
        have herase : ((args0 ++ [rwTok r0]) ++ keepMap rest).eraseIdx
            args0.length = args0 ++ keepMap rest := by
          have h2 : (args0 ++ [rwTok r0]) ++ keepMap rest
              = args0 ++ rwTok r0 :: keepMap rest := by simp
          rw [h2, eraseIdx_append_mid]
        rw [herase]
        rfl
      · have hdp : dropPositions args0.length (r0 :: rest)
            = dropPositions (args0.length + 1) rest := by
          simp only [dropPositions]
          rw [if_neg hd]
        have hkeep : keepMap (r0 :: rest) = rwTok r0 :: keepMap rest := by
          unfold keepMap
          rw [List.filterMap_cons, if_neg hd]
        show delIdx (args0 ++ rwTok r0 :: rest.map rwTok)
          (sortDesc (dropPositions args0.length (r0 :: rest)))
          = Except.ok (args0 ++ keepMap (r0 :: rest))
        rw [hdp, hkeep]
        have h3 : args0 ++ rwTok r0 :: keepMap rest
            = (args0 ++ [rwTok r0]) ++ keepMap rest := by simp
        rw [h3, ← hIH]

theorem pushQueue_minus (q : CmdQueues) (r : Str) :
    pushQueue q kwMinus r = { q with remq := q.remq ++ [r] } := by
  unfold pushQueue
  rw [if_neg (by decide), if_pos rfl]

theorem pushQueue_arrow (q : CmdQueues) (r : Str) :
    pushQueue q kwArrow r = { q with renq := q.renq ++ [r] } := by
  unfold pushQueue
  rw [if_neg (by decide), if_neg (by decide)]

theorem get_append_mid2 (xs : List Str) (b : Str) (ys : List Str) (k : Nat)
    (hk : k = xs.length) (h : k < (xs ++ b :: ys).length) :
    (xs ++ b :: ys).get ⟨k, h⟩ = b := by
  subst hk
  exact get_append_mid xs b ys h

theorem interp_scan_spec (L : List Str) (hnd : L.Nodup)
    (hone : ∀ a ∈ L, markerCount a ≤ 1)
    (hrw : ∀ a ∈ L, containsSub kwPlus a = true →
      ∀ b ∈ L, b ≠ a → replaceTP a ≠ b) :
    ∀ (rest done : List Str) (td : List Nat) (q : CmdQueues) (fuel : Nat),
      L = done ++ rest → rest.length ≤ fuel →
      interp_scan fuel (done.map rwTok ++ rest) done.length td q
        = Except.ok (done.map rwTok ++ rest.map rwTok,
            td ++ dropPositions done.length rest,
            ⟨q.addq ++ rest.filter (fun a => containsSub kwPlus a),
             q.remq ++ rest.filter (fun a => containsSub kwMinus a),
             q.renq ++ rest.filter (fun a => containsSub kwArrow a)⟩)
  | [], done, td, q, fuel, hL, hfuel => by
      cases fuel with
      | zero => simp [interp_scan, dropPositions]
      | succ fuel' =>
          simp only [interp_scan]
          rw [dif_neg (by simp)]
          simp [dropPositions]
  | r0 :: rest', done, td, q, fuel, hL, hfuel => by
      cases fuel with
      | zero => exact absurd hfuel (by simp)
      | succ fuel' =>
          have hr0L : r0 ∈ L := by
            rw [hL]
            exact List.mem_append_right _ (List.mem_cons_self _ _)
          have hdisj : ∀ d ∈ done, d ≠ r0 := by
            intro d hd he
            have hnd' : (done ++ r0 :: rest').Nodup := hL ▸ hnd
            exact (List.disjoint_of_nodup_append hnd') hd
              (he ▸ List.mem_cons_self _ _)
          have hfst : ∀ x ∈ done.map rwTok, x ≠ r0 := by
            intro x hx
            obtain ⟨d, hd, hxd⟩ := List.mem_map.mp hx
            have hdL : d ∈ L := by
              rw [hL]
              exact List.mem_append_left _ hd
            subst hxd
            unfold rwTok
            by_cases hp : containsSub kwPlus d = true
            · rw [if_pos hp]
              exact hrw d hdL hp r0 hr0L (fun he => hdisj d hd he.symm)
            · rw [if_neg hp]
              exact hdisj d hd
          have hpos : done.length < (done.map rwTok ++ r0 :: rest').length := by
            simp
          have hL' : L = (done ++ [r0]) ++ rest' := by
            rw [hL]
            simp
          have hmc := marker_unique (hone r0 hr0L)
          simp only [interp_scan]
          rw [dif_pos hpos,
            get_append_mid2 (done.map rwTok) r0 rest' done.length (by simp)
              hpos]
          by_cases hplus : containsSub kwPlus r0 = true
          · obtain ⟨hminus, harrow⟩ := hmc.1 hplus
            simp only
              [procKeyword_plus r0 (done.map rwTok) rest' td q hfst hplus,
               procKeyword_no kwMinus r0, procKeyword_no kwArrow r0,
               hminus, harrow]
            have hargs : done.map rwTok ++ replaceTP r0 :: rest'
                = (done ++ [r0]).map rwTok ++ rest' := by
              simp [rwTok, hplus]
            have hIH := interp_scan_spec L hnd hone hrw rest' (done ++ [r0])
              td { q with addq := q.addq ++ [r0] } fuel' hL'
              (by simpa using Nat.le_of_succ_le_succ hfuel)
            rw [← hargs, show (done ++ [r0]).length = done.length + 1 by simp]
              at hIH
            rw [hIH]
            simp [rwTok, hplus, dropPositions, isDropArrow, hminus, harrow,
              List.filter_cons]
          · by_cases hminus : containsSub kwMinus r0 = true
            · obtain ⟨hplus2, harrow⟩ := hmc.2.1 hminus
              simp only [procKeyword_no kwPlus r0, hplus2,
                procKeyword_mark kwMinus r0 (done.map rwTok) rest' td q hfst
                  hminus (by decide),
                procKeyword_no kwArrow r0, harrow]
              have hargs : done.map rwTok ++ r0 :: rest'
                  = (done ++ [r0]).map rwTok ++ rest' := by
                simp [rwTok, hplus2]
              have hIH := interp_scan_spec L hnd hone hrw rest' (done ++ [r0])
                (td ++ [(done.map rwTok).length])
                (pushQueue q kwMinus r0) fuel' hL'
                (by simpa using Nat.le_of_succ_le_succ hfuel)
              rw [← hargs, show (done ++ [r0]).length = done.length + 1 by simp,
                show (done.map rwTok).length = done.length by simp] at hIH
              rw [show (List.map rwTok done).length = done.length from by simp,
                hIH]
              simp [rwTok, hplus2, dropPositions, isDropArrow, hminus, harrow,
                List.filter_cons, pushQueue_minus]
            · by_cases harrow : containsSub kwArrow r0 = true
              · obtain ⟨hplus2, hminus2⟩ := hmc.2.2 harrow
                simp only [procKeyword_no kwPlus r0, hplus2,
                  procKeyword_no kwMinus r0, hminus2,
                  procKeyword_mark kwArrow r0 (done.map rwTok) rest' td q
                    hfst harrow (by decide)]
                have hargs : done.map rwTok ++ r0 :: rest'
                    = (done ++ [r0]).map rwTok ++ rest' := by
                  simp [rwTok, hplus2]
                have hIH := interp_scan_spec L hnd hone hrw rest'
                  (done ++ [r0]) (td ++ [(done.map rwTok).length])
                  (pushQueue q kwArrow r0) fuel' hL'
                  (by simpa using Nat.le_of_succ_le_succ hfuel)
                rw [← hargs, show (done ++ [r0]).length = done.length + 1 by simp,
                  show (done.map rwTok).length = done.length by simp] at hIH
                rw [show (List.map rwTok done).length = done.length from by
                  simp, hIH]
                simp [rwTok, hplus2, dropPositions, isDropArrow, hminus2,
                  harrow, List.filter_cons, pushQueue_arrow]
              · have hplusF : containsSub kwPlus r0 = false := by
                  simpa using hplus
                have hminusF : containsSub kwMinus r0 = false := by
                  simpa using hminus
                have harrowF : containsSub kwArrow r0 = false := by
                  simpa using harrow
                simp only [procKeyword_no kwPlus r0, hplusF,
                  procKeyword_no kwMinus r0, hminusF,
                  procKeyword_no kwArrow r0, harrowF]
                have hargs : done.map rwTok ++ r0 :: rest'
                    = (done ++ [r0]).map rwTok ++ rest' := by
                  simp [rwTok, hplusF]
                have hIH := interp_scan_spec L hnd hone hrw rest'
                  (done ++ [r0]) td q fuel' hL'
                  (by simpa using Nat.le_of_succ_le_succ hfuel)
                rw [← hargs,
                  show (done ++ [r0]).length = done.length + 1 by simp] at hIH
                rw [hIH]
                simp [rwTok, hplusF, dropPositions, isDropArrow, hminusF,
                  harrowF, List.filter_cons]

/-- C8 amended: provided the argument tokens are pairwise distinct, each
token contains at most one marker kind, and no append token's rewritten form
collides with another token, the directive parser transforms the list
exactly as claimed — append-marked tokens stay, rewritten in place with
`'~+'` collapsed to `'~'`; drop- and rename-marked tokens are removed
entirely; unmarked tokens pass through unchanged — and each recognized
directive's argument is queued under its marker in scan order.  (With a
duplicated marker token, `args.index` resolves to the first occurrence and
the deferred double deletion removes unrelated tokens instead.) -/
theorem claim_C8_amended (L : List Str) (hnd : L.Nodup)
    (hone : ∀ a ∈ L, markerCount a ≤ 1)
    (hrw : ∀ a ∈ L, containsSub kwPlus a = true →
      ∀ b ∈ L, b ≠ a → replaceTP a ≠ b) :
    interpret_commandline L
      = Except.ok (keepMap L,
          { addq := L.filter (fun a => containsSub kwPlus a),
            remq := L.filter (fun a => containsSub kwMinus a),
            renq := L.filter (fun a => containsSub kwArrow a) }) := by
  unfold interpret_commandline
  have hscan := interp_scan_spec L hnd hone hrw L [] [] ⟨[], [], []⟩ L.length
    rfl (Nat.le_refl _)
  simp only [List.map_nil, List.nil_append, List.length_nil] at hscan
  have hdel := delIdx_dropPositions L []
  simp only [List.nil_append, List.length_nil] at hdel
  simp only [hscan, List.nil_append, hdel]

/-- Witness for the amended C8 on a four-token list with one marker each. -/
theorem claim_C8_amended_witness :
    interpret_commandline
        [['x', '~', '+', 'p'], ['y'], ['z', '~', '-'], ['w', '~', '>', 'v']]
      = Except.ok
          (keepMap [['x', '~', '+', 'p'], ['y'], ['z', '~', '-'],
            ['w', '~', '>', 'v']],
           { addq := [['x', '~', '+', 'p'], ['y'], ['z', '~', '-'],
               ['w', '~', '>', 'v']].filter (fun a => containsSub kwPlus a),
             remq := [['x', '~', '+', 'p'], ['y'], ['z', '~', '-'],
               ['w', '~', '>', 'v']].filter (fun a => containsSub kwMinus a),
             renq := [['x', '~', '+', 'p'], ['y'], ['z', '~', '-'],
               ['w', '~', '>', 'v']].filter
                 (fun a => containsSub kwArrow a) }) :=
  claim_C8_amended
    [['x', '~', '+', 'p'], ['y'], ['z', '~', '-'], ['w', '~', '>', 'v']]
    (by decide) (by decide) (by decide)

end OrionBranch
